import Mathlib

/-!
Verification of the osquery-configuration core of osctrl
(src/environments/osqueryconf.go) against its specification.

The Go file works over values of encoding/json: raw JSON text is decoded
with json.Unmarshal into typed fragments (maps, structs), and encoded with
json.MarshalIndent(v, "", indentStr).  We embed that pipeline shallowly:

* `Json` is the JSON data model.  Numbers are carried as `Int`: the
  configuration values the code handles are integers, and float formatting
  is outside the scope of this embedding.
* An object's field list models a Go `map[string]…` in canonical form:
  Go maps are unordered with unique keys, and encoding/json marshals map
  keys in ascending byte order, so the canonical representative is the
  field list sorted strictly by key.  The parser canonicalizes objects the
  way Unmarshal does when it builds a map (later duplicate keys win).
* `renderVal` models json.MarshalIndent with prefix "" and an indent unit:
  every element of a non-empty object/array starts on a new line preceded
  by `indent × depth`, a key is followed by a colon and a space, and empty
  objects/arrays stay inline.  With the empty indent unit the newlines
  remain — exactly MarshalIndent's behaviour when indentStr is "".
* `parseValue` models Unmarshal's scanner: whitespace-insensitive between
  tokens, strings with the standard escapes, and an error (`none`) on
  empty input, trailing data, or a malformed document.
-/

namespace Osctrl

/-! ## Lexical helpers -/

/-- JSON whitespace, as accepted by the scanner of Go's encoding/json. -/
def isWsChar (c : Char) : Bool := c = ' ' || c = '\n' || c = '\t' || c = '\r'

/-- ASCII decimal digit test, byte-valued to keep proofs arithmetic. -/
def isDigitChar (c : Char) : Bool := 48 ≤ c.toNat && c.toNat ≤ 57

/-- Drop leading JSON whitespace. -/
def skipWs : List Char → List Char
  | c :: cs => if isWsChar c then skipWs cs else c :: cs
  | [] => []

/-- Decimal digit character for `n % 10`. -/
def digitChar (n : Nat) : Char := Char.ofNat (48 + n % 10)

/-- Decimal digits of `n`, most significant first; structural on the fuel so
that concrete inputs evaluate inside the kernel. -/
def natCharsAux : Nat → Nat → List Char
  | 0, _ => []
  | fuel + 1, n => if n < 10 then [digitChar n] else natCharsAux fuel (n / 10) ++ [digitChar n]

/-- Decimal digits of a natural number, as Go's strconv prints them. -/
def natChars (n : Nat) : List Char := natCharsAux (n + 1) n

/-- Decimal characters of an integer: optional minus sign, then digits. -/
def intChars (i : Int) : List Char := (if i < 0 then ['-'] else []) ++ natChars i.natAbs

/-- Numeric value of a digit run. -/
def digitsVal (ds : List Char) : Nat := ds.foldl (fun a c => a * 10 + (c.toNat - 48)) 0

/-- Read a maximal run of decimal digits. -/
def parseNatNum (cs : List Char) : Option (Nat × List Char) :=
  let p := cs.span isDigitChar
  if p.1.isEmpty then none else some (digitsVal p.1, p.2)

/-- Read a JSON integer (optional minus sign, then digits). -/
def parseNum (cs : List Char) : Option (Int × List Char) :=
  match cs with
  | '-' :: r => (parseNatNum r).map (fun p => (-(p.1 : Int), p.2))
  | _ => (parseNatNum cs).map (fun p => ((p.1 : Int), p.2))

/-- Lower-case hexadecimal digit for `n < 16`, as Go's encoder emits. -/
def hexDigit (n : Nat) : Char := if n < 10 then Char.ofNat (48 + n) else Char.ofNat (87 + n)

/-- Value of one hexadecimal digit character. -/
def hexVal (c : Char) : Option Nat :=
  if 48 ≤ c.toNat && c.toNat ≤ 57 then some (c.toNat - 48)
  else if 97 ≤ c.toNat && c.toNat ≤ 102 then some (c.toNat - 87)
  else if 65 ≤ c.toNat && c.toNat ≤ 70 then some (c.toNat - 55)
  else none

/-- A `\uXXXX` escape with four lower-case hex digits. -/
def escHex4 (n : Nat) : List Char :=
  ['\\', 'u', hexDigit (n / 4096 % 16), hexDigit (n / 256 % 16), hexDigit (n / 16 % 16),
    hexDigit (n % 16)]

/-- One character escaped the way Go's encoding/json encoder does with its
default escapeHTML=true: quote and backslash get a backslash escape, newline,
carriage return and tab the short forms, all other control characters plus
the HTML-sensitive characters and U+2028/U+2029 a `\uXXXX` escape, and
everything else passes through literally. -/
def escChar (c : Char) : List Char :=
  if c = '"' then ['\\', '"']
  else if c = '\\' then ['\\', '\\']
  else if c = '\n' then ['\\', 'n']
  else if c = '\r' then ['\\', 'r']
  else if c = '\t' then ['\\', 't']
  else if c.toNat < 32 || c = '<' || c = '>' || c = '&' || c.toNat = 8232 || c.toNat = 8233 then
    escHex4 c.toNat
  else [c]

/-- Escape a whole character list. -/
def escList : List Char → List Char
  | [] => []
  | c :: cs => escChar c ++ escList cs

/-- Decode a single-character escape after a backslash. -/
def escDecode (e : Char) : Option Char :=
  if e = '"' then some '"'
  else if e = '\\' then some '\\'
  else if e = '/' then some '/'
  else if e = 'b' then some (Char.ofNat 8)
  else if e = 'f' then some (Char.ofNat 12)
  else if e = 'n' then some '\n'
  else if e = 'r' then some '\r'
  else if e = 't' then some '\t'
  else none

/-- Read a string body after the opening quote, consuming the closing quote;
raw control characters are rejected, as Go's scanner rejects them. -/
def parseStrBody : List Char → Option (List Char × List Char)
  | [] => none
  | '"' :: r => some ([], r)
  | '\\' :: 'u' :: h1 :: h2 :: h3 :: h4 :: r =>
    match hexVal h1, hexVal h2, hexVal h3, hexVal h4 with
    | some a, some b, some c, some d =>
      (parseStrBody r).map (fun p => (Char.ofNat (((a * 16 + b) * 16 + c) * 16 + d) :: p.1, p.2))
    | _, _, _, _ => none
  | '\\' :: e :: r =>
    match escDecode e with
    | some c => (parseStrBody r).map (fun p => (c :: p.1, p.2))
    | none => none
  | c :: r => if c.toNat < 32 then none else (parseStrBody r).map (fun p => (c :: p.1, p.2))

/-! ## The JSON data model -/

/-- A JSON value as Go's encoding/json materializes it: object fields model a
Go map in canonical (key-sorted, duplicate-free) form; see the file comment. -/
inductive Json where
  | null
  | jbool (b : Bool)
  | jnum (n : Int)
  | jstr (s : String)
  | jarr (xs : List Json)
  | jobj (kvs : List (String × Json))

/-- Byte-order comparison of two character lists; UTF-8 byte order agrees with
code-point order, so this is the order Go sorts map keys in. -/
def charsLt : List Char → List Char → Bool
  | [], [] => false
  | [], _ :: _ => true
  | _ :: _, [] => false
  | a :: as, b :: bs =>
    if a.toNat < b.toNat then true
    else if b.toNat < a.toNat then false
    else charsLt as bs

/-- Key order used by Go's map-key sort. -/
def keyLt (a b : String) : Bool := charsLt a.data b.data

/-- Insert a binding into a key-sorted binding list, replacing an existing
binding of the same key — a Go map assignment on the canonical form. -/
def insertField {α : Type} (k : String) (v : α) : List (String × α) → List (String × α)
  | [] => [(k, v)]
  | (k1, v1) :: rest =>
    if keyLt k k1 then (k, v) :: (k1, v1) :: rest
    else if k = k1 then (k, v) :: rest
    else (k1, v1) :: insertField k v rest

/-- Fold a raw field list (text order) into a canonical one; later bindings of
a key overwrite earlier ones, as repeated keys do in Unmarshal. -/
def sortFieldsAux : List (String × Json) → List (String × Json) → List (String × Json)
  | [], acc => acc
  | (k, v) :: rest, acc => sortFieldsAux rest (insertField k v acc)

/-- Canonicalize one level of object fields. -/
def sortFields (kvs : List (String × Json)) : List (String × Json) := sortFieldsAux kvs []

mutual
/-- Canonical form of a value: every object, at every depth, key-sorted with
duplicates collapsed.  Values produced by decoding are always canonical; a
value is a faithful image of a Go value exactly when it is its own canon. -/
def canonJson : Json → Json
  | .null => .null
  | .jbool b => .jbool b
  | .jnum n => .jnum n
  | .jstr s => .jstr s
  | .jarr xs => .jarr (canonList xs)
  | .jobj kvs => .jobj (sortFields (canonFields kvs))
/-- Canonicalize every element of an array. -/
def canonList : List Json → List Json
  | [] => []
  | x :: xs => canonJson x :: canonList xs
/-- Canonicalize every value of a field list, keeping the order. -/
def canonFields : List (String × Json) → List (String × Json)
  | [] => []
  | (k, v) :: kvs => (k, canonJson v) :: canonFields kvs
end

/-! ## Rendering, as json.MarshalIndent does -/

/-- The indent unit repeated `d` times. -/
def indentReps (u : List Char) : Nat → List Char
  | 0 => []
  | d + 1 => u ++ indentReps u d

/-- A newline followed by the indentation of depth `d`. -/
def nlInd (u : List Char) (d : Nat) : List Char := '\n' :: indentReps u d

mutual
/-- Render a value at depth `d` with indent unit `u`, producing exactly the
text json.MarshalIndent(v, "", u) produces: each element of a non-empty
object or array starts on a new line indented to its depth, keys are
followed by a colon and a space, empty objects and arrays stay inline. -/
def renderVal (u : List Char) (d : Nat) : Json → List Char
  | .null => ['n', 'u', 'l', 'l']
  | .jbool true => ['t', 'r', 'u', 'e']
  | .jbool false => ['f', 'a', 'l', 's', 'e']
  | .jnum n => intChars n
  | .jstr s => '"' :: (escList s.data ++ ['"'])
  | .jarr [] => ['[', ']']
  | .jarr (x :: xs) =>
    '[' :: (nlInd u (d + 1) ++ renderVal u (d + 1) x ++ renderItems u (d + 1) xs
      ++ nlInd u d ++ [']'])
  | .jobj [] => ['\x7b', '\x7d']
  | .jobj ((k, v) :: kvs) =>
    '\x7b' :: (nlInd u (d + 1) ++ ('"' :: (escList k.data ++ ['"', ':', ' ']))
      ++ renderVal u (d + 1) v ++ renderFields u (d + 1) kvs ++ nlInd u d ++ ['\x7d'])
/-- Render the remaining elements of an array, each after a comma, a newline
and the indentation of depth `d`. -/
def renderItems (u : List Char) (d : Nat) : List Json → List Char
  | [] => []
  | x :: xs => ',' :: (nlInd u d ++ renderVal u d x ++ renderItems u d xs)
/-- Render the remaining fields of an object, each after a comma, a newline
and the indentation of depth `d`. -/
def renderFields (u : List Char) (d : Nat) : List (String × Json) → List Char
  | [] => []
  | (k, v) :: kvs =>
    ',' :: (nlInd u d ++ ('"' :: (escList k.data ++ ['"', ':', ' '])) ++ renderVal u d v
      ++ renderFields u d kvs)
end

/-! ## Parsing, as json.Unmarshal scans -/

/-- Require the given literal characters at the head of the input. -/
def expectCs : List Char → List Char → Option (List Char)
  | [], cs => some cs
  | e :: es, c :: cs => if c = e then expectCs es cs else none
  | _ :: _, [] => none

mutual
/-- Parse one JSON value; the input must start at the value's first character
(callers skip whitespace).  Structural on the fuel. -/
def parseValue : Nat → List Char → Option (Json × List Char)
  | 0, _ => none
  | _ + 1, [] => none
  | fuel + 1, c :: r =>
    if c = 'n' then (expectCs ['u', 'l', 'l'] r).map (fun r2 => (Json.null, r2))
    else if c = 't' then (expectCs ['r', 'u', 'e'] r).map (fun r2 => (Json.jbool true, r2))
    else if c = 'f' then (expectCs ['a', 'l', 's', 'e'] r).map (fun r2 => (Json.jbool false, r2))
    else if c = '"' then (parseStrBody r).map (fun p => (Json.jstr (String.mk p.1), p.2))
    else if c = '[' then
      match skipWs r with
      | ']' :: r2 => some (Json.jarr [], r2)
      | r1 => (parseItems fuel r1).map (fun p => (Json.jarr p.1, p.2))
    else if c = '\x7b' then
      match skipWs r with
      | '\x7d' :: r2 => some (Json.jobj [], r2)
      | r1 => (parseFields fuel r1).map (fun p => (Json.jobj (sortFields p.1), p.2))
    else if c = '-' || isDigitChar c then (parseNum (c :: r)).map (fun p => (Json.jnum p.1, p.2))
    else none
/-- Parse one or more comma-separated array elements and the closing bracket. -/
def parseItems : Nat → List Char → Option (List Json × List Char)
  | 0, _ => none
  | fuel + 1, cs =>
    match parseValue fuel cs with
    | none => none
    | some (v, r) =>
      match skipWs r with
      | ',' :: r2 => (parseItems fuel (skipWs r2)).map (fun p => (v :: p.1, p.2))
      | ']' :: r2 => some ([v], r2)
      | _ => none
/-- Parse one or more comma-separated object fields and the closing brace,
in text order (the caller canonicalizes). -/
def parseFields : Nat → List Char → Option (List (String × Json) × List Char)
  | 0, _ => none
  | fuel + 1, cs =>
    match cs with
    | '"' :: r =>
      match parseStrBody r with
      | none => none
      | some (kl, r1) => parseFieldsTail fuel (String.mk kl) r1
    | _ => none
/-- Parse the remainder of one object field after its key: the colon, the
value, and then either a comma and further fields or the closing brace. -/
def parseFieldsTail : Nat → String → List Char → Option (List (String × Json) × List Char)
  | 0, _, _ => none
  | fuel + 1, key, cs =>
    match skipWs cs with
    | ':' :: r2 =>
      match parseValue fuel (skipWs r2) with
      | none => none
      | some (v, r3) =>
        match skipWs r3 with
        | ',' :: r4 => (parseFields fuel (skipWs r4)).map (fun p => ((key, v) :: p.1, p.2))
        | '\x7d' :: r4 => some ([(key, v)], r4)
        | _ => none
    | _ => none
end

/-- Parse a complete JSON document the way json.Unmarshal does: leading and
trailing whitespace is fine, trailing data is an error, and — decisive for
the empty-fragment behaviour — empty input is an error, not a value. -/
def parseJsonText (s : String) : Option Json :=
  match parseValue (s.data.length + 1) (skipWs s.data) with
  | some (v, r) => if (skipWs r).isEmpty then some v else none
  | none => none

end Osctrl

namespace Osctrl

/-! ## The typed fragment layer of osqueryconf.go -/

/-- OptionsConf for each part of the configuration: Go's map[string]interface
in canonical (key-sorted) field-list form. -/
abbrev OptionsConf := List (String × Json)

/-- ScheduleQuery holds one scheduled query; in the Go struct every field —
including query and interval — carries the omitempty tag. -/
structure ScheduleQuery where
  query : String := ""
  interval : Int := 0
  removed : Bool := false
  snapshot : Bool := false
  platform : String := ""
  version : String := ""
  shard : Int := 0
  denylist : Bool := false
deriving DecidableEq

/-- ScheduleConf maps query names to schedule entries (canonical form). -/
abbrev ScheduleConf := List (String × ScheduleQuery)

/-- PacksConf maps pack names to opaque values. -/
abbrev PacksConf := List (String × Json)

/-- ATCConf maps table names to opaque table-construction specs. -/
abbrev ATCConf := List (String × Json)

/-- DecoratorConf holds the decorator lists; interval is an opaque value whose
Go nil interface is modelled by `Json.null`. -/
structure DecoratorConf where
  load : List String := []
  always : List String := []
  interval : Json := .null

/-- OsqueryConf aggregates the five fragments. -/
structure OsqueryConf where
  options : OptionsConf
  schedule : ScheduleConf
  packs : PacksConf
  decorators : DecoratorConf
  atc : ATCConf

/-- Field list of a marshalled ScheduleQuery, the way encoding/json marshals
the Go struct: fields in declaration order, each omitted at its zero value
(every field has omitempty), absent fields never emitted as null or zero. -/
def sqFields (q : ScheduleQuery) : List (String × Json) :=
  (if q.query = "" then [] else [("query", Json.jstr q.query)])
    ++ (if q.interval = 0 then [] else [("interval", Json.jnum q.interval)])
    ++ (if q.removed then [("removed", Json.jbool true)] else [])
    ++ (if q.snapshot then [("snapshot", Json.jbool true)] else [])
    ++ (if q.platform = "" then [] else [("platform", Json.jstr q.platform)])
    ++ (if q.version = "" then [] else [("version", Json.jstr q.version)])
    ++ (if q.shard = 0 then [] else [("shard", Json.jnum q.shard)])
    ++ (if q.denylist then [("denylist", Json.jbool true)] else [])

/-- Marshal a ScheduleQuery. -/
def ScheduleQuery.toJson (q : ScheduleQuery) : Json := .jobj (sqFields q)

/-- Field list of a marshalled schedule map. -/
def scheduleFields (m : ScheduleConf) : List (String × Json) :=
  m.map (fun p => (p.1, p.2.toJson))

/-- Marshal a schedule map. -/
def scheduleToJson (m : ScheduleConf) : Json := .jobj (scheduleFields m)

/-- A JSON array of strings. -/
def strArr (l : List String) : Json := .jarr (l.map Json.jstr)

/-- The nil-interface test on an opaque value: Go's nil interface is
modelled by the null value. -/
def Json.isNull : Json → Bool
  | .null => true
  | _ => false

/-- Field list of a marshalled DecoratorConf: load, always and interval are
all omitempty, so empty slices and the nil interval are omitted. -/
def dcFields (dc : DecoratorConf) : List (String × Json) :=
  (if dc.load = [] then [] else [("load", strArr dc.load)])
    ++ (if dc.always = [] then [] else [("always", strArr dc.always)])
    ++ (if dc.interval.isNull then [] else [("interval", dc.interval)])

/-- Marshal a DecoratorConf. -/
def DecoratorConf.toJson (dc : DecoratorConf) : Json := .jobj (dcFields dc)

/-- Marshal the composed configuration: the five fields carry no omitempty, so
all five keys are always emitted, in struct declaration order. -/
def OsqueryConf.toJson (c : OsqueryConf) : Json :=
  .jobj [("options", .jobj c.options), ("schedule", scheduleToJson c.schedule),
    ("packs", .jobj c.packs), ("decorators", c.decorators.toJson),
    ("auto_table_construction", .jobj c.atc)]

/-- GenSerializedConf generates a serialized osquery configuration from the
structured data: json.MarshalIndent(structured, "", indentStr) with indentStr
two spaces when indent is set and empty otherwise.  Marshaling the JSON
values of this model never fails, so the error branch of the Go pair return
is never taken. -/
def GenSerializedConf (structured : Json) (indent : Bool) : Except String String :=
  .ok (String.mk (renderVal (if indent then [' ', ' '] else []) 0 structured))

/-! ### Unmarshal into the typed shapes -/

/-- Look a key up in a binding list.  encoding/json matches struct fields by
name (this model uses exact matching; the keys this core emits are already
exact, so its case-insensitive fallback is never exercised). -/
def getField {α : Type} (k : String) : List (String × α) → Option α
  | [] => none
  | (k1, v) :: rest => if k = k1 then some v else getField k rest

/-- Unmarshal an optional field into a Go string: absent or null leaves the
zero value, a string is taken, anything else is a type error. -/
def unmarshalStr : Option Json → Except String String
  | none => .ok ""
  | some .null => .ok ""
  | some (.jstr s) => .ok s
  | some _ => .error "cannot unmarshal JSON value into field of type string"

/-- Unmarshal an optional field into a Go int. -/
def unmarshalInt : Option Json → Except String Int
  | none => .ok 0
  | some .null => .ok 0
  | some (.jnum n) => .ok n
  | some _ => .error "cannot unmarshal JSON value into field of type int"

/-- Unmarshal an optional field into a Go bool. -/
def unmarshalBool : Option Json → Except String Bool
  | none => .ok false
  | some .null => .ok false
  | some (.jbool b) => .ok b
  | some _ => .error "cannot unmarshal JSON value into field of type bool"

/-- Unmarshal the elements of a JSON array into Go strings. -/
def strListOf : List Json → Except String (List String)
  | [] => .ok []
  | .jstr s :: xs => (strListOf xs).map (fun l => s :: l)
  | .null :: xs => (strListOf xs).map (fun l => "" :: l)
  | _ :: _ => .error "cannot unmarshal JSON value into field of type string slice"

/-- Unmarshal an optional field into a Go string slice. -/
def unmarshalStrList : Option Json → Except String (List String)
  | none => .ok []
  | some .null => .ok []
  | some (.jarr xs) => strListOf xs
  | some _ => .error "cannot unmarshal JSON value into field of type string slice"

/-- Unmarshal a value into a Go map of opaque values: null leaves the nil
map, an object gives its (already canonical) fields, anything else is a
type error. -/
def mapOfJson : Json → Except String (List (String × Json))
  | .null => .ok []
  | .jobj kvs => .ok kvs
  | _ => .error "cannot unmarshal JSON value into map of opaque values"

/-- Unmarshal a value into a ScheduleQuery struct: fields by name, unknown
keys silently ignored, zero values for absent fields. -/
def scheduleQueryOfJson : Json → Except String ScheduleQuery
  | .null => .ok ⟨"", 0, false, false, "", "", 0, false⟩
  | .jobj kvs => do
    let q ← unmarshalStr (getField "query" kvs)
    let i ← unmarshalInt (getField "interval" kvs)
    let rm ← unmarshalBool (getField "removed" kvs)
    let sn ← unmarshalBool (getField "snapshot" kvs)
    let pl ← unmarshalStr (getField "platform" kvs)
    let ver ← unmarshalStr (getField "version" kvs)
    let sh ← unmarshalInt (getField "shard" kvs)
    let dl ← unmarshalBool (getField "denylist" kvs)
    .ok ⟨q, i, rm, sn, pl, ver, sh, dl⟩
  | _ => .error "cannot unmarshal JSON value into ScheduleQuery"

/-- Unmarshal every value of a schedule object. -/
def scheduleOfFields : List (String × Json) → Except String ScheduleConf
  | [] => .ok []
  | (k, v) :: rest => do
    let q ← scheduleQueryOfJson v
    let m ← scheduleOfFields rest
    .ok ((k, q) :: m)

/-- Unmarshal a value into a schedule map. -/
def scheduleOfJson : Json → Except String ScheduleConf
  | .null => .ok []
  | .jobj kvs => scheduleOfFields kvs
  | _ => .error "cannot unmarshal JSON value into ScheduleConf"

/-- Unmarshal a value into a DecoratorConf struct. -/
def decoratorOfJson : Json → Except String DecoratorConf
  | .null => .ok ⟨[], [], .null⟩
  | .jobj kvs => do
    let lo ← unmarshalStrList (getField "load" kvs)
    let al ← unmarshalStrList (getField "always" kvs)
    let iv := match getField "interval" kvs with | none => Json.null | some j => j
    .ok ⟨lo, al, iv⟩
  | _ => .error "cannot unmarshal JSON value into DecoratorConf"

/-- Unmarshal a value into the composed OsqueryConf struct. -/
def osqueryConfOfJson : Json → Except String OsqueryConf
  | .null => .ok ⟨[], [], [], ⟨[], [], .null⟩, []⟩
  | .jobj kvs => do
    let o ← (match getField "options" kvs with | none => .ok [] | some j => mapOfJson j)
    let s ← (match getField "schedule" kvs with | none => .ok [] | some j => scheduleOfJson j)
    let p ← (match getField "packs" kvs with | none => .ok [] | some j => mapOfJson j)
    let dc ← (match getField "decorators" kvs with
      | none => Except.ok (⟨[], [], .null⟩ : DecoratorConf) | some j => decoratorOfJson j)
    let a ← (match getField "auto_table_construction" kvs with
      | none => .ok [] | some j => mapOfJson j)
    .ok ⟨o, s, p, dc, a⟩
  | _ => .error "cannot unmarshal JSON value into OsqueryConf"

/-- Shared first stage of every GenStruct function: json.Unmarshal's parse of
the raw text.  Empty input is an error — Go's "unexpected end of JSON input"
— never a value; this model reports one message for every syntax error. -/
def parseStage (configuration : String) : Except String Json :=
  match parseJsonText configuration with
  | none => .error "unexpected end of JSON input"
  | some j => .ok j

/-- GenStructOptions generates options from the serialized string. -/
def GenStructOptions (configuration : String) : Except String OptionsConf := do
  mapOfJson (← parseStage configuration)

/-- GenStructSchedule generates schedule from the serialized string. -/
def GenStructSchedule (configuration : String) : Except String ScheduleConf := do
  scheduleOfJson (← parseStage configuration)

/-- GenStructPacks generates packs from the serialized string. -/
def GenStructPacks (configuration : String) : Except String PacksConf := do
  mapOfJson (← parseStage configuration)

/-- GenStructDecorators generates decorators from the serialized string. -/
def GenStructDecorators (configuration : String) : Except String DecoratorConf := do
  decoratorOfJson (← parseStage configuration)

/-- GenStructATC generates ATC from the serialized string. -/
def GenStructATC (configuration : String) : Except String ATCConf := do
  mapOfJson (← parseStage configuration)

/-- GenStructConf generates the components from the osquery configuration. -/
def GenStructConf (configuration : String) : Except String OsqueryConf := do
  osqueryConfOfJson (← parseStage configuration)

/-! ### Defaults and the empty configuration -/

/-- Modelled from the spec: the constant DecoratorUsers lives in a source
file of this repository that was not provided (only osqueryconf.go is); per
§4.3 the DefaultsProvider is a fixed table of five built-in decorator
queries, the first identifying the user. -/
def DecoratorUsers : String := "SELECT username FROM users;"

/-- Modelled from the spec: the fixed hostname decorator query. -/
def DecoratorHostname : String := "SELECT hostname FROM system_info;"

/-- Modelled from the spec: the fixed logged-in-user decorator query. -/
def DecoratorLoggedInUser : String := "SELECT user FROM logged_in_users;"

/-- Modelled from the spec: the fixed agent-version-hash decorator query. -/
def DecoratorOsqueryVersionHash : String := "SELECT version FROM osquery_info;"

/-- Modelled from the spec: the fixed process-integrity-hash decorator query. -/
def DecoratorMD5Process : String := "SELECT md5 FROM hash WHERE path = /proc/self/exe;"

/-- The fixed five-item default decorator list of the DefaultsProvider. -/
def defaultAlways : List String :=
  [DecoratorUsers, DecoratorHostname, DecoratorLoggedInUser, DecoratorOsqueryVersionHash,
    DecoratorMD5Process]

/-- GenEmptyConfiguration generates a serialized string with an empty
configuration: all fragments empty except the decorators' always slot, which
carries the five defaults.  The Go function swallows a serialization error
into the empty string; that branch is modelled faithfully (and proven dead). -/
def GenEmptyConfiguration (indent : Bool) : String :=
  let cnf : OsqueryConf := ⟨[], [], [], ⟨[], defaultAlways, .null⟩, []⟩
  match GenSerializedConf cnf.toJson indent with
  | .ok s => s
  | .error _ => ""

/-! ### The environment store and the writer operations -/

/-- TLSEnvironment models, per §3 and §6 of the spec, the five raw-text
fragment columns and the composed-configuration column of an environment; the
Go type itself lives outside the provided source. -/
structure TLSEnvironment where
  options : String
  schedule : String
  packs : String
  decorators : String
  atc : String
  configuration : String

/-- Modelled from the spec: UpdateOptions persists the options fragment; the
external store update of §6 is modelled as a field write that succeeds. -/
def UpdateOptions (env : TLSEnvironment) (o : String) : TLSEnvironment :=
  { env with options := o }

/-- Modelled from the spec: UpdateSchedule persists the schedule fragment as
a store field write that succeeds. -/
def UpdateSchedule (env : TLSEnvironment) (s : String) : TLSEnvironment :=
  { env with schedule := s }

/-- RefreshConfiguration takes all parts and puts them together in the
configuration: decode the five current raw fragments, abort with a fragment-
naming error on the first failure, serialize the composition pretty and write
it to the configuration column.  The result pairs the environment as left in
the store with the returned error; environment.Get is modelled per §6 as the
store lookup that yields the record. -/
def RefreshConfiguration (env : TLSEnvironment) : TLSEnvironment × Option String :=
  match GenStructOptions env.options with
  | .error e => (env, some ("error structuring options " ++ e))
  | .ok o =>
  match GenStructSchedule env.schedule with
  | .error e => (env, some ("error structuring schedule " ++ e))
  | .ok s =>
  match GenStructPacks env.packs with
  | .error e => (env, some ("error structuring packs " ++ e))
  | .ok p =>
  match GenStructDecorators env.decorators with
  | .error e => (env, some ("error structuring decorators " ++ e))
  | .ok dec =>
  match GenStructATC env.atc with
  | .error e => (env, some ("error structuring ATC " ++ e))
  | .ok a =>
  match GenSerializedConf (OsqueryConf.toJson ⟨o, s, p, dec, a⟩) true with
  | .error e => (env, some ("error serializing configuration " ++ e))
  | .ok indentedConf => ({ env with configuration := indentedConf }, none)

/-- UpdateConfiguration updates the composed configuration column wholesale. -/
def UpdateConfiguration (env : TLSEnvironment) (cnf : OsqueryConf) :
    TLSEnvironment × Option String :=
  match GenSerializedConf cnf.toJson true with
  | .error e => (env, some ("error serializing configuration " ++ e))
  | .ok c => ({ env with configuration := c }, none)

/-- UpdateConfigurationParts serializes all five fragments before writing any
of the five columns, as one logical update. -/
def UpdateConfigurationParts (env : TLSEnvironment) (cnf : OsqueryConf) :
    TLSEnvironment × Option String :=
  match GenSerializedConf (.jobj cnf.options) true with
  | .error e => (env, some ("error serializing options " ++ e))
  | .ok o =>
  match GenSerializedConf (scheduleToJson cnf.schedule) true with
  | .error e => (env, some ("error serializing schedule " ++ e))
  | .ok s =>
  match GenSerializedConf (.jobj cnf.packs) true with
  | .error e => (env, some ("error serializing packs " ++ e))
  | .ok p =>
  match GenSerializedConf cnf.decorators.toJson true with
  | .error e => (env, some ("error serializing decorators " ++ e))
  | .ok dec =>
  match GenSerializedConf (.jobj cnf.atc) true with
  | .error e => (env, some ("error serializing ATC " ++ e))
  | .ok a =>
    ({ env with options := o, schedule := s, packs := p, decorators := dec, atc := a }, none)

/-- The raw text whose decode leaves a Go map nil: json.Unmarshal of the
JSON null into a map type succeeds without allocating, so the variable keeps
its nil zero value.  A decode of an object text always allocates. -/
def parsedNull (s : String) : Bool :=
  match parseJsonText s with
  | some .null => true
  | _ => false

/-- AddOptionsConf adds (or overwrites) one option: decode the options
fragment, assign the key, serialize pretty, persist the options column, then
refresh the whole configuration.  The assignment is a Go map index write: on
a fragment column holding JSON null the decode succeeds but leaves the map
nil, and the write panics (assignment to entry in nil map), so the function
crashes before installing or returning anything — that panic is the none
outcome.  The modelled store write succeeds, so the wrap of an UpdateOptions
error is never taken. -/
def AddOptionsConf (env : TLSEnvironment) (option : String) (value : Json) :
    Option (TLSEnvironment × Option String) :=
  match GenStructOptions env.options with
  | .error e => some (env, some ("error structuring options " ++ e))
  | .ok o =>
    if parsedNull env.options then none
    else
      let o2 := insertField option value o
      match GenSerializedConf (.jobj o2) true with
      | .error e => some (env, some ("error serializing options " ++ e))
      | .ok indentedOptions =>
        let env2 := UpdateOptions env indentedOptions
        match RefreshConfiguration env2 with
        | (env3, some e) => some (env3, some ("error refreshing configuration " ++ e))
        | (env3, none) => some (env3, none)

/-- AddScheduleConfQuery adds (or overwrites) one scheduled query, following
the same read-decode-assign-serialize-persist-refresh pattern on the schedule
fragment; as in AddOptionsConf, the map index write panics — none — when the
schedule column held JSON null and the decoded map is nil. -/
def AddScheduleConfQuery (env : TLSEnvironment) (qName : String) (query : ScheduleQuery) :
    Option (TLSEnvironment × Option String) :=
  match GenStructSchedule env.schedule with
  | .error e => some (env, some ("error structuring schedule " ++ e))
  | .ok s =>
    if parsedNull env.schedule then none
    else
      let s2 := insertField qName query s
      match GenSerializedConf (scheduleToJson s2) true with
      | .error e => some (env, some ("error serializing schedule " ++ e))
      | .ok indentedSchedule =>
        let env2 := UpdateSchedule env indentedSchedule
        match RefreshConfiguration env2 with
        | (env3, some e) => some (env3, some ("error refreshing configuration " ++ e))
        | (env3, none) => some (env3, none)

end Osctrl

namespace Osctrl

/-! ## Character-level facts -/

/-- Characters are determined by their code points. -/
theorem char_eq_of_toNat {a b : Char} (h : a.toNat = b.toNat) : a = b := by
  rw [← Char.ofNat_toNat a, h, Char.ofNat_toNat b]

/-- Code point of a character built from a valid scalar value below the
surrogate range. -/
theorem toNat_ofNat_small {n : Nat} (h : n < 55296) : (Char.ofNat n).toNat = n := by
  have hv : Nat.isValidChar n := Or.inl h
  simp only [Char.ofNat, hv, dif_pos, Char.toNat, Char.ofNatAux]
  rfl

/-- Every character code point is below the Unicode bound. -/
theorem toNat_lt_char (c : Char) : c.toNat < 1114112 := by
  have h := c.valid
  rcases h with h | ⟨_, h2⟩ <;> simp only [Char.toNat] <;> omega

/-- A whitespace character is one of the four scanner characters. -/
theorem isWsChar_iff {c : Char} :
    isWsChar c = true ↔ c.toNat = 32 ∨ c.toNat = 10 ∨ c.toNat = 9 ∨ c.toNat = 13 := by
  constructor
  · intro h
    simp only [isWsChar, Bool.or_eq_true, decide_eq_true_eq] at h
    rcases h with ((h | h) | h) | h <;> subst h <;> simp
  · intro h
    have hc : c = ' ' ∨ c = '\n' ∨ c = '\t' ∨ c = '\r' := by
      rcases h with h | h | h | h
      · exact Or.inl (char_eq_of_toNat h)
      · exact Or.inr (Or.inl (char_eq_of_toNat h))
      · exact Or.inr (Or.inr (Or.inl (char_eq_of_toNat h)))
      · exact Or.inr (Or.inr (Or.inr (char_eq_of_toNat h)))
    rcases hc with h | h | h | h <;> subst h <;> rfl

/-- A digit is characterized by its code point range. -/
theorem isDigitChar_iff {c : Char} : isDigitChar c = true ↔ 48 ≤ c.toNat ∧ c.toNat ≤ 57 := by
  simp [isDigitChar]

/-- Digits are not whitespace. -/
theorem isWsChar_of_digit {c : Char} (h : isDigitChar c = true) : isWsChar c = false := by
  rw [isDigitChar_iff] at h
  by_contra hw
  rw [Bool.not_eq_false, isWsChar_iff] at hw
  omega

/-- Whitespace characters are not digits. -/
theorem isDigitChar_of_ws {c : Char} (h : isWsChar c = true) : isDigitChar c = false := by
  rw [isWsChar_iff] at h
  by_contra hd
  rw [Bool.not_eq_false, isDigitChar_iff] at hd
  omega

/-- A digit differs from any character with a code point outside the digit
range; stated through the code point to keep every use a one-liner. -/
theorem digit_ne {c e : Char} (h : isDigitChar c = true)
    (he : e.toNat < 48 ∨ 57 < e.toNat) : c ≠ e := by
  rw [isDigitChar_iff] at h
  intro hce
  subst hce
  omega

/-! ## skipWs facts -/

/-- skipWs keeps a non-whitespace head. -/
theorem skipWs_cons_not {c : Char} {r : List Char} (h : isWsChar c = false) :
    skipWs (c :: r) = c :: r := by
  simp [skipWs, h]

/-- skipWs drops a leading whitespace-only block. -/
theorem skipWs_append_ws {w : List Char} (hw : ∀ c ∈ w, isWsChar c = true)
    (r : List Char) : skipWs (w ++ r) = skipWs r := by
  induction w with
  | nil => rfl
  | cons c cs ih =>
    have hc := hw c (by simp)
    simp only [List.cons_append, skipWs, hc, if_true]
    exact ih (fun x hx => hw x (by simp [hx]))

/-- Every character of a repeated indent unit comes from the unit. -/
theorem indentReps_ws {u : List Char} (hu : ∀ c ∈ u, isWsChar c = true) (d : Nat) :
    ∀ c ∈ indentReps u d, isWsChar c = true := by
  induction d with
  | zero => intro c hc; simp [indentReps] at hc
  | succ d ih =>
    intro c hc
    simp only [indentReps, List.mem_append] at hc
    rcases hc with hc | hc
    · exact hu c hc
    · exact ih c hc

/-- A newline-plus-indent block is all whitespace. -/
theorem nlInd_ws {u : List Char} (hu : ∀ c ∈ u, isWsChar c = true) (d : Nat) :
    ∀ c ∈ nlInd u d, isWsChar c = true := by
  intro c hc
  simp only [nlInd, List.mem_cons] at hc
  rcases hc with hc | hc
  · subst hc; rfl
  · exact indentReps_ws hu d c hc

/-- skipWs jumps over a newline-plus-indent block. -/
theorem skipWs_nlInd {u : List Char} (hu : ∀ c ∈ u, isWsChar c = true) (d : Nat)
    (r : List Char) : skipWs (nlInd u d ++ r) = skipWs r :=
  skipWs_append_ws (nlInd_ws hu d) r

/-! ## Decimal digits and integers -/

/-- The fuel of natCharsAux does not matter once it covers the value. -/
theorem natCharsAux_congr : ∀ f1 : Nat, ∀ n : Nat, n < f1 → ∀ f2 : Nat, n < f2 →
    natCharsAux f1 n = natCharsAux f2 n := by
  intro f1
  induction f1 with
  | zero => intro n h; omega
  | succ g ih =>
    intro n hn f2 hf2
    match f2, hf2 with
    | g2 + 1, _ =>
      simp only [natCharsAux]
      by_cases h10 : n < 10
      · simp [h10]
      · have hdiv : n / 10 < n := Nat.div_lt_self (by omega) (by omega)
        simp only [if_neg h10]
        rw [ih (n / 10) (by omega) g2 (by omega)]

/-- Unfolding equation for natChars in last-digit form. -/
theorem natChars_unfold (n : Nat) :
    natChars n = if n < 10 then [digitChar n] else natChars (n / 10) ++ [digitChar n] := by
  by_cases h10 : n < 10
  · simp [natChars, natCharsAux, h10]
  · have hdiv : n / 10 < n := Nat.div_lt_self (by omega) (by omega)
    rw [if_neg h10]
    conv_lhs => simp only [natChars, natCharsAux, h10]
    rw [natCharsAux_congr n (n / 10) (by omega) (n / 10 + 1) (by omega)]
    rfl

/-- The digit character carries its value. -/
theorem digitChar_toNat (n : Nat) : (digitChar n).toNat = 48 + n % 10 := by
  have h : 48 + n % 10 < 55296 := by
    have := Nat.mod_lt n (show 0 < 10 by omega)
    omega
  simp [digitChar, toNat_ofNat_small h]

/-- The digit character is a digit. -/
theorem digitChar_isDigit (n : Nat) : isDigitChar (digitChar n) = true := by
  rw [isDigitChar_iff, digitChar_toNat]
  have := Nat.mod_lt n (show 0 < 10 by omega)
  omega

/-- A printed natural number is a nonempty digit run. -/
theorem natChars_spec (n : Nat) :
    natChars n ≠ [] ∧ ∀ c ∈ natChars n, isDigitChar c = true := by
  induction n using Nat.strong_induction_on with
  | _ n ih =>
    rw [natChars_unfold]
    by_cases h10 : n < 10
    · simp only [if_pos h10]
      exact ⟨by simp, by intro c hc; simp at hc; subst hc; exact digitChar_isDigit n⟩
    · have hdiv : n / 10 < n := Nat.div_lt_self (by omega) (by omega)
      have := ih (n / 10) hdiv
      simp only [if_neg h10]
      refine ⟨by simp, ?_⟩
      intro c hc
      rw [List.mem_append] at hc
      rcases hc with hc | hc
      · exact this.2 c hc
      · simp at hc; subst hc; exact digitChar_isDigit n

/-- A printed natural number starts with a digit. -/
theorem natChars_head (n : Nat) :
    ∃ c t, natChars n = c :: t ∧ isDigitChar c = true := by
  obtain ⟨hne, hdig⟩ := natChars_spec n
  match h : natChars n with
  | [] => exact absurd h hne
  | c :: t => exact ⟨c, t, rfl, hdig c (h ▸ List.mem_cons_self ..)⟩

/-- Folding the printed digits recovers the number. -/
theorem digitsVal_natChars (n : Nat) : digitsVal (natChars n) = n := by
  have gen : ∀ m : Nat, ∀ a : Nat,
      (natChars m).foldl (fun x c => x * 10 + (c.toNat - 48)) a = a * 10 ^ (natChars m).length + m := by
    intro m
    induction m using Nat.strong_induction_on with
    | _ m ih =>
      intro a
      rw [natChars_unfold]
      by_cases h10 : m < 10
      · simp [if_pos h10, digitChar_toNat, Nat.mod_eq_of_lt h10]
      · have hdiv : m / 10 < m := Nat.div_lt_self (by omega) (by omega)
        simp only [if_neg h10, List.foldl_append, List.foldl_cons, List.foldl_nil,
          List.length_append, List.length_cons, List.length_nil]
        rw [ih (m / 10) hdiv a, digitChar_toNat]
        have : a * 10 ^ ((natChars (m / 10)).length + (0 + 1))
            = (a * 10 ^ (natChars (m / 10)).length) * 10 := by ring
        rw [this]
        omega
  have := gen n 0
  simpa [digitsVal] using this

/-- A tail that cannot extend a digit run: empty or headed by a non-digit. -/
def numSafe : List Char → Prop
  | [] => True
  | c :: _ => isDigitChar c = false

/-- Any non-digit head gives a safe tail. -/
theorem numSafe_cons {c : Char} (h : isDigitChar c = false) (r : List Char) :
    numSafe (c :: r) := h

/-- A whitespace block followed by a non-digit is a safe tail. -/
theorem numSafe_ws_append {w : List Char} (hw : ∀ c ∈ w, isWsChar c = true)
    {c : Char} (hc : isDigitChar c = false) (r : List Char) : numSafe (w ++ c :: r) := by
  cases w with
  | nil => exact hc
  | cons x xs => exact isDigitChar_of_ws (hw x (by simp))

/-- The span of a digit run against a safe tail. -/
theorem span_digits {ds : List Char} (hds : ∀ c ∈ ds, isDigitChar c = true)
    {r : List Char} (hr : numSafe r) : (ds ++ r).span isDigitChar = (ds, r) := by
  induction ds with
  | nil =>
    cases r with
    | nil => rfl
    | cons c t =>
      have : isDigitChar c = false := hr
      simp [List.span, List.span.loop, this]
  | cons c cs ih =>
    have hc := hds c (by simp)
    have ht := ih (fun x hx => hds x (by simp [hx]))
    simp only [List.span_eq_take_drop, List.cons_append, List.takeWhile_cons, hc,
      List.dropWhile_cons, if_true, Prod.mk.injEq] at ht ⊢
    exact ⟨by rw [ht.1], ht.2⟩

/-- Reading back a printed natural number against a safe tail. -/
theorem parseNatNum_natChars (n : Nat) {r : List Char} (hr : numSafe r) :
    parseNatNum (natChars n ++ r) = some (n, r) := by
  obtain ⟨hne, hdig⟩ := natChars_spec n
  simp only [parseNatNum, span_digits hdig hr]
  rw [if_neg (by simpa using hne)]
  rw [digitsVal_natChars]

/-- parseNum on a digit-headed input takes the unsigned branch. -/
theorem parseNum_digit_head {c : Char} (hc : isDigitChar c = true) (t : List Char) :
    parseNum (c :: t) = (parseNatNum (c :: t)).map (fun p => ((p.1 : Int), p.2)) := by
  rw [parseNum.eq_def]
  split
  · rename_i r heq
    injection heq with h1 _
    exact absurd h1 (digit_ne hc (by decide))
  · rfl

/-- Reading back a printed integer against a safe tail. -/
theorem parseNum_intChars (i : Int) {r : List Char} (hr : numSafe r) :
    parseNum (intChars i ++ r) = some (i, r) := by
  by_cases hneg : i < 0
  · simp only [intChars, if_pos hneg, List.cons_append, List.nil_append]
    simp only [parseNum, parseNatNum_natChars i.natAbs hr, Option.map_some']
    have h : -(i.natAbs : Int) = i := by omega
    rw [h]
  · obtain ⟨c, t, hct, hc⟩ := natChars_head i.natAbs
    simp only [intChars, if_neg hneg, List.nil_append]
    rw [hct, List.cons_append, parseNum_digit_head hc, ← List.cons_append, ← hct,
      parseNatNum_natChars i.natAbs hr]
    simp only [Option.map_some']
    have h : ((i.natAbs : Int)) = i := by omega
    rw [h]

end Osctrl

namespace Osctrl

/-! ## String escaping round trip -/

/-- Hex digits decode to their value. -/
theorem hexVal_hexDigit {m : Nat} (h : m < 16) : hexVal (hexDigit m) = some m := by
  interval_cases m <;> decide

/-- A `\uXXXX` escape parses back to its character, for code points below
the escape range bound. -/
theorem parseStrBody_escHex (c : Char) (hlt : c.toNat < 65536) (s : List Char) :
    parseStrBody (escHex4 c.toNat ++ s) = (parseStrBody s).map (fun p => (c :: p.1, p.2)) := by
  have h16 : ∀ k : Nat, k % 16 < 16 := fun k => Nat.mod_lt _ (by omega)
  simp only [escHex4, List.cons_append, List.nil_append, parseStrBody,
    hexVal_hexDigit (h16 _)]
  have hsplit : ∀ m : Nat, m < 65536 →
      ((m / 4096 % 16 * 16 + m / 256 % 16) * 16 + m / 16 % 16) * 16 + m % 16 = m := by
    intro m hm
    omega
  rw [hsplit c.toNat hlt, Char.ofNat_toNat]
  rfl

/-- One escaped character parses back to itself. -/
theorem parseStrBody_escChar (c : Char) (s : List Char) :
    parseStrBody (escChar c ++ s) = (parseStrBody s).map (fun p => (c :: p.1, p.2)) := by
  by_cases hq : c = '"'
  · subst hq; simp [escChar, parseStrBody, escDecode]
  by_cases hbs : c = '\\'
  · subst hbs; simp [escChar, parseStrBody, escDecode]
  by_cases hn : c = '\n'
  · subst hn; simp [escChar, parseStrBody, escDecode]
  by_cases hr : c = '\r'
  · subst hr; simp [escChar, parseStrBody, escDecode]
  by_cases ht : c = '\t'
  · subst ht; simp [escChar, parseStrBody, escDecode]
  by_cases hx : c.toNat < 32 || c = '<' || c = '>' || c = '&' || c.toNat = 8232 || c.toNat = 8233
  · have hesc : escChar c = escHex4 c.toNat := by
      simp only [escChar, if_neg hq, if_neg hbs, if_neg hn, if_neg hr, if_neg ht, if_pos hx]
    have hlt : c.toNat < 65536 := by
      simp only [Bool.or_eq_true, decide_eq_true_eq] at hx
      rcases hx with ((((h | h) | h) | h) | h) | h
      · omega
      · subst h; decide
      · subst h; decide
      · subst h; decide
      · omega
      · omega
    rw [hesc, parseStrBody_escHex c hlt]
  · have hesc : escChar c = [c] := by
      simp only [escChar, if_neg hq, if_neg hbs, if_neg hn, if_neg hr, if_neg ht, if_neg hx]
    have h32 : ¬(c.toNat < 32) := by
      intro hlt
      exact hx (by simp [hlt])
    rw [hesc, List.cons_append, List.nil_append, parseStrBody.eq_def]
    split
    all_goals first
      | (rename_i heq
         simp only [List.cons.injEq] at heq
         first
           | exact absurd heq.1 hq
           | exact absurd heq.1 hbs
           | (obtain ⟨h1, htl⟩ := heq
              subst h1
              subst htl
              rw [if_neg h32]))
      | (rename_i heq
         simp at heq)

/-- A fully escaped character run parses back, stopping at the closing quote. -/
theorem parseStrBody_escList (l : List Char) : ∀ s : List Char,
    parseStrBody (escList l ++ ('"' :: s)) = some (l, s) := by
  induction l with
  | nil => intro s; simp [escList, parseStrBody]
  | cons c cs ih =>
    intro s
    rw [escList, List.append_assoc, parseStrBody_escChar, ih]
    rfl

end Osctrl

namespace Osctrl

/-! ## The key order -/

/-- The byte order is irreflexive. -/
theorem charsLt_irrefl : ∀ l : List Char, charsLt l l = false := by
  intro l
  induction l with
  | nil => rfl
  | cons a as ih => simp [charsLt, ih]

/-- The byte order is asymmetric. -/
theorem charsLt_asymm : ∀ a b : List Char, charsLt a b = true → charsLt b a = false := by
  intro a
  induction a with
  | nil =>
    intro b h
    cases b with
    | nil => simp [charsLt] at h
    | cons y ys => rfl
  | cons x xs ih =>
    intro b h
    cases b with
    | nil => simp [charsLt] at h
    | cons y ys =>
      simp only [charsLt] at h ⊢
      by_cases h1 : x.toNat < y.toNat
      · rw [if_neg (by omega), if_pos h1]
      · by_cases h2 : y.toNat < x.toNat
        · rw [if_neg h1, if_pos h2] at h
          exact absurd h (by simp)
        · rw [if_neg h1, if_neg h2] at h
          rw [if_neg h2, if_neg h1]
          exact ih ys h

/-- The byte order is transitive. -/
theorem charsLt_trans : ∀ a b c : List Char,
    charsLt a b = true → charsLt b c = true → charsLt a c = true := by
  intro a
  induction a with
  | nil =>
    intro b c hab hbc
    cases b with
    | nil => simp [charsLt] at hab
    | cons y ys =>
      cases c with
      | nil => simp [charsLt] at hbc
      | cons z zs => rfl
  | cons x xs ih =>
    intro b c hab hbc
    cases b with
    | nil => simp [charsLt] at hab
    | cons y ys =>
      cases c with
      | nil => simp [charsLt] at hbc
      | cons z zs =>
        simp only [charsLt] at hab hbc ⊢
        by_cases h1 : x.toNat < y.toNat
        · by_cases h2 : y.toNat < z.toNat
          · rw [if_pos (by omega)]
          · by_cases h3 : z.toNat < y.toNat
            · rw [if_neg h2, if_pos h3] at hbc
              exact absurd hbc (by simp)
            · rw [if_pos (by omega)]
        · by_cases h4 : y.toNat < x.toNat
          · rw [if_neg h1, if_pos h4] at hab
            exact absurd hab (by simp)
          · rw [if_neg h1, if_neg h4] at hab
            by_cases h2 : y.toNat < z.toNat
            · rw [if_pos (by omega)]
            · by_cases h3 : z.toNat < y.toNat
              · rw [if_neg h2, if_pos h3] at hbc
                exact absurd hbc (by simp)
              · rw [if_neg h2, if_neg h3] at hbc
                rw [if_neg (by omega), if_neg (by omega)]
                exact ih ys zs hab hbc

/-- The byte order is connected: mutually unrelated lists are equal. -/
theorem charsLt_conn : ∀ a b : List Char,
    charsLt a b = false → charsLt b a = false → a = b := by
  intro a
  induction a with
  | nil =>
    intro b h1 _
    cases b with
    | nil => rfl
    | cons y ys => simp [charsLt] at h1
  | cons x xs ih =>
    intro b h1 h2
    cases b with
    | nil => simp [charsLt] at h2
    | cons y ys =>
      simp only [charsLt] at h1 h2
      by_cases hx : x.toNat < y.toNat
      · rw [if_pos hx] at h1
        exact absurd h1 (by simp)
      · by_cases hy : y.toNat < x.toNat
        · rw [if_pos hy] at h2
          exact absurd h2 (by simp)
        · rw [if_neg hx, if_neg hy] at h1
          rw [if_neg hy, if_neg hx] at h2
          have hxy : x = y := char_eq_of_toNat (by omega)
          rw [hxy, ih ys h1 h2]

/-- Strings with equal data are equal. -/
theorem string_eq_of_data {a b : String} (h : a.data = b.data) : a = b :=
  congrArg String.mk h

/-- The key order is irreflexive. -/
theorem keyLt_irrefl (a : String) : keyLt a a = false := charsLt_irrefl a.data

/-- The key order is asymmetric. -/
theorem keyLt_asymm {a b : String} (h : keyLt a b = true) : keyLt b a = false :=
  charsLt_asymm a.data b.data h

/-- The key order is transitive. -/
theorem keyLt_trans {a b c : String} (h1 : keyLt a b = true) (h2 : keyLt b c = true) :
    keyLt a c = true :=
  charsLt_trans a.data b.data c.data h1 h2

/-- The key order is connected. -/
theorem keyLt_conn {a b : String} (h1 : keyLt a b = false) (h2 : keyLt b a = false) : a = b :=
  string_eq_of_data (charsLt_conn a.data b.data h1 h2)

/-- Related keys are distinct. -/
theorem keyLt_ne {a b : String} (h : keyLt a b = true) : a ≠ b := by
  intro hab
  subst hab
  rw [keyLt_irrefl] at h
  exact absurd h (by simp)

/-- Unrelated distinct keys are related the other way. -/
theorem keyLt_of_not {a b : String} (h1 : keyLt a b = false) (h2 : a ≠ b) :
    keyLt b a = true := by
  cases hb : keyLt b a with
  | true => rfl
  | false => exact absurd (keyLt_conn h1 hb) h2

/-! ## Binding-list facts -/

/-- Keys strictly ascending in the Go map-key order: the canonical form. -/
def keysSorted {α : Type} (l : List (String × α)) : Prop :=
  l.Pairwise (fun a b => keyLt a.1 b.1 = true)

/-- Pairwise-distinct keys. -/
def keysNodup {α : Type} (l : List (String × α)) : Prop :=
  l.Pairwise (fun a b => a.1 ≠ b.1)

/-- Sorted binding lists have distinct keys. -/
theorem keysSorted.nodup {α : Type} {l : List (String × α)} (h : keysSorted l) :
    keysNodup l :=
  h.imp (fun hab => keyLt_ne hab)

/-- Lookup after an assignment: the assigned key reads the new value, every
other key is untouched. -/
theorem getField_insertField {α : Type} (k k1 : String) (v : α) :
    ∀ l : List (String × α),
    getField k (insertField k1 v l) = if k = k1 then some v else getField k l := by
  intro l
  induction l with
  | nil => simp [insertField, getField]
  | cons a rest ih =>
    obtain ⟨k2, v2⟩ := a
    simp only [insertField]
    by_cases hlt : keyLt k1 k2
    · rw [if_pos hlt]
      simp [getField]
    · rw [if_neg hlt]
      by_cases heq : k1 = k2
      · rw [if_pos heq]
        subst heq
        by_cases hk : k = k1 <;> simp [getField, hk]
      · rw [if_neg heq]
        by_cases hk2 : k = k2
        · subst hk2
          have hne : k ≠ k1 := fun h => heq (h ▸ rfl)
          simp [getField, ih, hne]
        · simp [getField, hk2, ih]

/-- Members of an assignment result come from the binding or the old list. -/
theorem insertField_mem {α : Type} {k : String} {v : α} :
    ∀ {l : List (String × α)} {a : String × α},
    a ∈ insertField k v l → a = (k, v) ∨ a ∈ l := by
  intro l
  induction l with
  | nil => intro a ha; simpa [insertField] using ha
  | cons b rest ih =>
    obtain ⟨k2, v2⟩ := b
    intro a ha
    simp only [insertField] at ha
    by_cases hlt : keyLt k k2
    · rw [if_pos hlt] at ha
      rcases List.mem_cons.mp ha with ha | ha
      · exact Or.inl ha
      · exact Or.inr ha
    · rw [if_neg hlt] at ha
      by_cases heq : k = k2
      · rw [if_pos heq] at ha
        rcases List.mem_cons.mp ha with ha | ha
        · exact Or.inl ha
        · exact Or.inr (List.mem_cons_of_mem _ ha)
      · rw [if_neg heq] at ha
        rcases List.mem_cons.mp ha with ha | ha
        · exact Or.inr (ha ▸ List.mem_cons_self ..)
        · rcases ih ha with h | h
          · exact Or.inl h
          · exact Or.inr (List.mem_cons_of_mem _ h)

/-- Assignment preserves the canonical sorted form. -/
theorem insertField_sorted {α : Type} (k : String) (v : α) :
    ∀ {l : List (String × α)}, keysSorted l → keysSorted (insertField k v l) := by
  intro l
  induction l with
  | nil => intro _; simp [insertField, keysSorted]
  | cons b rest ih =>
    obtain ⟨k2, v2⟩ := b
    intro h
    rw [keysSorted, List.pairwise_cons] at h
    obtain ⟨hhead, htail⟩ := h
    simp only [insertField]
    by_cases hlt : keyLt k k2
    · rw [if_pos hlt]
      rw [keysSorted, List.pairwise_cons]
      constructor
      · intro b hb
        rcases List.mem_cons.mp hb with hb | hb
        · rw [hb]
          exact hlt
        · exact keyLt_trans hlt (hhead b hb)
      · rw [List.pairwise_cons]
        exact ⟨hhead, htail⟩
    · rw [if_neg hlt]
      by_cases heq : k = k2
      · rw [if_pos heq]
        subst heq
        rw [keysSorted, List.pairwise_cons]
        exact ⟨hhead, htail⟩
      · rw [if_neg heq]
        have hgt : keyLt k2 k = true := keyLt_of_not (by simpa using hlt) heq
        rw [keysSorted, List.pairwise_cons]
        constructor
        · intro b hb
          rcases insertField_mem hb with hb | hb
          · rw [hb]
            exact hgt
          · exact hhead b hb
        · exact ih htail

end Osctrl

namespace Osctrl

/-! ## Canonicalization facts -/

/-- Folding assignments always lands in the canonical sorted form. -/
theorem sortFieldsAux_sorted : ∀ (l acc : List (String × Json)), keysSorted acc →
    keysSorted (sortFieldsAux l acc) := by
  intro l
  induction l with
  | nil => intro acc h; exact h
  | cons b rest ih =>
    obtain ⟨k, v⟩ := b
    intro acc h
    exact ih (insertField k v acc) (insertField_sorted k v h)

/-- The canonical form is sorted. -/
theorem sortFields_sorted (l : List (String × Json)) : keysSorted (sortFields l) :=
  sortFieldsAux_sorted l [] (by simp [keysSorted])

/-- Assigning a key above every key of the list appends the binding. -/
theorem insertField_append_gt {α : Type} (k : String) (v : α) :
    ∀ acc : List (String × α), (∀ a ∈ acc, keyLt a.1 k = true) →
    insertField k v acc = acc ++ [(k, v)] := by
  intro acc
  induction acc with
  | nil => intro _; rfl
  | cons b rest ih =>
    obtain ⟨k2, v2⟩ := b
    intro h
    have hk2 : keyLt k2 k = true := h (k2, v2) (by simp)
    have h1 : keyLt k k2 = false := keyLt_asymm hk2
    have h2 : k ≠ k2 := fun he => keyLt_ne hk2 he.symm
    simp only [insertField, h1, Bool.false_eq_true, if_false, if_neg h2, List.cons_append]
    rw [ih (fun a ha => h a (List.mem_cons_of_mem _ ha))]

/-- Folding assignments over a sorted suffix alongside a compatible prefix is
the identity composition. -/
theorem sortFieldsAux_of_sorted : ∀ (l acc : List (String × Json)),
    keysSorted (acc ++ l) → sortFieldsAux l acc = acc ++ l := by
  intro l
  induction l with
  | nil => intro acc _; simp [sortFieldsAux]
  | cons b rest ih =>
    obtain ⟨k, v⟩ := b
    intro acc h
    have hacc : ∀ a ∈ acc, keyLt a.1 k = true := by
      intro a ha
      rw [keysSorted, List.pairwise_append] at h
      exact h.2.2 a ha (k, v) (by simp)
    simp only [sortFieldsAux]
    rw [insertField_append_gt k v acc hacc, ih (acc ++ [(k, v)]) (by simpa using h)]
    simp

/-- Canonicalization is the identity on canonical-form field lists. -/
theorem sortFields_of_sorted {l : List (String × Json)} (h : keysSorted l) :
    sortFields l = l :=
  sortFieldsAux_of_sorted l [] (by simpa using h)

/-- Members of the canonical form come from the raw list. -/
theorem sortFieldsAux_mem : ∀ (l acc : List (String × Json)) (a : String × Json),
    a ∈ sortFieldsAux l acc → a ∈ l ∨ a ∈ acc := by
  intro l
  induction l with
  | nil => intro acc a ha; exact Or.inr ha
  | cons b rest ih =>
    obtain ⟨k, v⟩ := b
    intro acc a ha
    rcases ih (insertField k v acc) a ha with h | h
    · exact Or.inl (List.mem_cons_of_mem _ h)
    · rcases insertField_mem h with h | h
      · exact Or.inl (h ▸ List.mem_cons_self ..)
      · exact Or.inr h

/-- Members of the canonical form come from the raw field list. -/
theorem sortFields_mem {l : List (String × Json)} {a : String × Json}
    (ha : a ∈ sortFields l) : a ∈ l := by
  rcases sortFieldsAux_mem l [] a ha with h | h
  · exact h
  · simp at h

/-- A key bound nowhere reads back nothing. -/
theorem getField_none {α : Type} {k : String} :
    ∀ {l : List (String × α)}, (∀ b ∈ l, k ≠ b.1) → getField k l = none := by
  intro l
  induction l with
  | nil => intro _; rfl
  | cons b rest ih =>
    obtain ⟨k1, v1⟩ := b
    intro h
    have : k ≠ k1 := h (k1, v1) (by simp)
    simp only [getField, if_neg this]
    exact ih (fun b hb => h b (List.mem_cons_of_mem _ hb))

/-- Lookup through the canonicalizing fold, for duplicate-free raw lists. -/
theorem getField_sortFieldsAux : ∀ (l acc : List (String × Json)) (k : String),
    keysNodup l →
    getField k (sortFieldsAux l acc)
      = match getField k l with | some v => some v | none => getField k acc := by
  intro l
  induction l with
  | nil => intro acc k _; simp [sortFieldsAux, getField]
  | cons b rest ih =>
    obtain ⟨k1, v1⟩ := b
    intro acc k hnd
    rw [keysNodup, List.pairwise_cons] at hnd
    simp only [sortFieldsAux]
    rw [ih (insertField k1 v1 acc) k hnd.2]
    by_cases hk : k = k1
    · subst hk
      have hrest : getField k rest = none := getField_none (fun b hb => hnd.1 b hb)
      simp [getField, hrest, getField_insertField]
    · simp only [getField, if_neg hk]
      cases hg : getField k rest with
      | some v => rfl
      | none => simp [getField_insertField, hk]

/-- Lookup commutes with canonicalization on duplicate-free field lists. -/
theorem getField_sortFields {l : List (String × Json)} (h : keysNodup l) (k : String) :
    getField k (sortFields l) = getField k l := by
  rw [sortFields, getField_sortFieldsAux l [] k h]
  cases hg : getField k l <;> simp [getField]

/-- Lookup in a concatenation: the left block wins. -/
theorem getField_append {α : Type} (k : String) : ∀ a b : List (String × α),
    getField k (a ++ b)
      = match getField k a with | some v => some v | none => getField k b := by
  intro a b
  induction a with
  | nil => simp [getField]
  | cons x rest ih =>
    obtain ⟨k1, v1⟩ := x
    by_cases hk : k = k1 <;> simp [getField, hk, ih]

/-- Canonicalizing values is the identity when every value is canonical. -/
theorem canonFields_id : ∀ {l : List (String × Json)},
    (∀ a ∈ l, canonJson a.2 = a.2) → canonFields l = l := by
  intro l
  induction l with
  | nil => intro _; rfl
  | cons b rest ih =>
    obtain ⟨k, v⟩ := b
    intro h
    have hv : canonJson v = v := h (k, v) (by simp)
    simp only [canonFields, hv]
    rw [ih (fun a ha => h a (List.mem_cons_of_mem _ ha))]

/-- Canonicalizing elements is the identity when every element is canonical. -/
theorem canonList_id : ∀ {l : List Json},
    (∀ a ∈ l, canonJson a = a) → canonList l = l := by
  intro l
  induction l with
  | nil => intro _; rfl
  | cons x rest ih =>
    intro h
    have hv : canonJson x = x := h x (by simp)
    simp only [canonList, hv]
    rw [ih (fun a ha => h a (List.mem_cons_of_mem _ ha))]

/-- A field list is canonical when it is sorted and its values are. -/
theorem canonJson_jobj_id {l : List (String × Json)} (hs : keysSorted l)
    (hv : ∀ a ∈ l, canonJson a.2 = a.2) : canonJson (Json.jobj l) = Json.jobj l := by
  rw [canonJson, canonFields_id hv, sortFields_of_sorted hs]

end Osctrl

namespace Osctrl

/-! ## Rendered text and the parser: dispatch facts -/

/-- Every rendered value begins with a character that is neither whitespace
nor a closing bracket or brace. -/
theorem renderVal_head (u : List Char) (d : Nat) (x : Json) :
    ∃ c t, renderVal u d x = c :: t ∧ isWsChar c = false ∧ c ≠ ']' ∧ c ≠ '\x7d' := by
  have hgood : ∀ c : Char, c ∈ ['n', 't', 'f', '"', '[', '-', '\x7b'] →
      isWsChar c = false ∧ c ≠ ']' ∧ c ≠ '\x7d' := by decide
  cases x with
  | null => exact ⟨'n', _, rfl, hgood 'n' (by decide)⟩
  | jbool b =>
    cases b
    case true => exact ⟨'t', _, rfl, hgood 't' (by decide)⟩
    case false => exact ⟨'f', _, rfl, hgood 'f' (by decide)⟩
  | jnum n =>
    by_cases hneg : n < 0
    · refine ⟨'-', natChars n.natAbs, ?_, hgood '-' (by decide)⟩
      simp [renderVal, intChars, hneg]
    · obtain ⟨c, t, hct, hc⟩ := natChars_head n.natAbs
      refine ⟨c, t, ?_, isWsChar_of_digit hc, digit_ne hc (by decide), digit_ne hc (by decide)⟩
      simp [renderVal, intChars, hneg, hct]
  | jstr s => exact ⟨'"', _, rfl, hgood '"' (by decide)⟩
  | jarr xs =>
    cases xs
    case nil => exact ⟨'[', _, rfl, hgood '[' (by decide)⟩
    case cons y ys => exact ⟨'[', _, rfl, hgood '[' (by decide)⟩
  | jobj kvs =>
    cases kvs
    case nil => exact ⟨'\x7b', _, rfl, hgood '\x7b' (by decide)⟩
    case cons b kvs2 =>
      obtain ⟨k, v⟩ := b
      exact ⟨'\x7b', _, rfl, hgood '\x7b' (by decide)⟩

/-- skipWs is the identity on a rendered value and anything after it. -/
theorem skipWs_renderVal (u : List Char) (d : Nat) (x : Json) (r : List Char) :
    skipWs (renderVal u d x ++ r) = renderVal u d x ++ r := by
  obtain ⟨c, t, hct, hws, _, _⟩ := renderVal_head u d x
  rw [hct, List.cons_append, skipWs_cons_not hws]

/-- The null literal parses. -/
theorem parseValue_null (f : Nat) (rest : List Char) :
    parseValue (f + 1) ('n' :: 'u' :: 'l' :: 'l' :: rest) = some (Json.null, rest) := rfl

/-- The true literal parses. -/
theorem parseValue_true (f : Nat) (rest : List Char) :
    parseValue (f + 1) ('t' :: 'r' :: 'u' :: 'e' :: rest) = some (Json.jbool true, rest) := rfl

/-- The false literal parses. -/
theorem parseValue_false (f : Nat) (rest : List Char) :
    parseValue (f + 1) ('f' :: 'a' :: 'l' :: 's' :: 'e' :: rest)
      = some (Json.jbool false, rest) := rfl

/-- A rendered string parses back. -/
theorem parseValue_str (f : Nat) (s : String) (rest : List Char) :
    parseValue (f + 1) ('"' :: (escList s.data ++ ('"' :: rest)))
      = some (Json.jstr s, rest) := by
  have step : parseValue (f + 1) ('"' :: (escList s.data ++ ('"' :: rest)))
      = (parseStrBody (escList s.data ++ ('"' :: rest))).map
          (fun p => (Json.jstr (String.mk p.1), p.2)) := rfl
  rw [step, parseStrBody_escList]
  rfl

/-- An input headed by a sign or digit parses through parseNum. -/
theorem parseValue_num_head (f : Nat) {c : Char} (t : List Char)
    (hc : c = '-' ∨ isDigitChar c = true) :
    parseValue (f + 1) (c :: t) = (parseNum (c :: t)).map (fun p => (Json.jnum p.1, p.2)) := by
  rcases hc with hc | hc
  · subst hc
    rfl
  · have h1 : c ≠ 'n' := digit_ne hc (by decide)
    have h2 : c ≠ 't' := digit_ne hc (by decide)
    have h3 : c ≠ 'f' := digit_ne hc (by decide)
    have h4 : c ≠ '"' := digit_ne hc (by decide)
    have h5 : c ≠ '[' := digit_ne hc (by decide)
    have h6 : c ≠ '\x7b' := digit_ne hc (by decide)
    have hcond : (c = '-' || isDigitChar c) = true := by simp [hc]
    simp only [parseValue, if_neg h1, if_neg h2, if_neg h3, if_neg h4, if_neg h5, if_neg h6,
      hcond, if_true]

/-- The empty-array literal parses. -/
theorem parseValue_arr_nil (f : Nat) (rest : List Char) :
    parseValue (f + 1) ('[' :: ']' :: rest) = some (Json.jarr [], rest) := rfl

/-- The empty-object literal parses. -/
theorem parseValue_obj_nil (f : Nat) (rest : List Char) :
    parseValue (f + 1) ('\x7b' :: '\x7d' :: rest) = some (Json.jobj [], rest) := rfl

/-- The array branch hands a non-empty element list to parseItems. -/
theorem parseValue_open_arr (f : Nat) {r : List Char} {c : Char} {t : List Char}
    (hsk : skipWs r = c :: t) (hc : c ≠ ']') :
    parseValue (f + 1) ('[' :: r)
      = (parseItems f (c :: t)).map (fun p => (Json.jarr p.1, p.2)) := by
  have step : parseValue (f + 1) ('[' :: r)
      = (match skipWs r with
         | ']' :: r2 => some (Json.jarr [], r2)
         | r1 => (parseItems f r1).map (fun p => (Json.jarr p.1, p.2))) := rfl
  rw [step, hsk]
  split
  · rename_i heq
    simp only [List.cons.injEq] at heq
    exact absurd heq.1 hc
  · rfl

/-- The object branch hands a non-empty field list to parseFields. -/
theorem parseValue_open_obj (f : Nat) {r : List Char} {c : Char} {t : List Char}
    (hsk : skipWs r = c :: t) (hc : c ≠ '\x7d') :
    parseValue (f + 1) ('\x7b' :: r)
      = (parseFields f (c :: t)).map (fun p => (Json.jobj (sortFields p.1), p.2)) := by
  have step : parseValue (f + 1) ('\x7b' :: r)
      = (match skipWs r with
         | '\x7d' :: r2 => some (Json.jobj [], r2)
         | r1 => (parseFields f r1).map (fun p => (Json.jobj (sortFields p.1), p.2))) := rfl
  rw [step, hsk]
  split
  · rename_i heq
    simp only [List.cons.injEq] at heq
    exact absurd heq.1 hc
  · rfl

end Osctrl

namespace Osctrl

/-! ## The render-parse round trip -/

/-- Json values have positive size. -/
theorem json_sizeOf_pos (x : Json) : 0 < sizeOf x := by
  cases x <;> simp_arith

/-- Json lists have positive size. -/
theorem listJson_sizeOf_pos (l : List Json) : 0 < sizeOf l := by
  cases l <;> simp_arith

/-- Field lists have positive size. -/
theorem fieldsJson_sizeOf_pos (l : List (String × Json)) : 0 < sizeOf l := by
  cases l <;> simp_arith

/-- One-step unfolding of parseItems at successor fuel. -/
theorem parseItems_step (f : Nat) (cs : List Char) :
    parseItems (f + 1) cs
      = match parseValue f cs with
        | none => none
        | some (v, r) =>
          match skipWs r with
          | ',' :: r2 => (parseItems f (skipWs r2)).map (fun p => (v :: p.1, p.2))
          | ']' :: r2 => some ([v], r2)
          | _ => none := rfl

mutual
/-- Parsing a rendered value, against any non-digit-extending tail, yields the
value's canonical form and the exact tail. -/
theorem rtVal : ∀ (x : Json) (u : List Char) (d fuel : Nat) (rest : List Char),
    (∀ c ∈ u, isWsChar c = true) → (renderVal u d x).length < fuel → numSafe rest →
    parseValue fuel (renderVal u d x ++ rest) = some (canonJson x, rest)
  | .null, u, d, fuel, rest, hu, hf, hr => by
    cases fuel with
    | zero => exact absurd hf (Nat.not_lt_zero _)
    | succ f =>
      have hsh : renderVal u d Json.null ++ rest = 'n' :: 'u' :: 'l' :: 'l' :: rest := by
        simp [renderVal]
      rw [hsh, parseValue_null]
      rfl
  | .jbool true, u, d, fuel, rest, hu, hf, hr => by
    cases fuel with
    | zero => exact absurd hf (Nat.not_lt_zero _)
    | succ f =>
      have hsh : renderVal u d (Json.jbool true) ++ rest = 't' :: 'r' :: 'u' :: 'e' :: rest := by
        simp [renderVal]
      rw [hsh, parseValue_true]
      rfl
  | .jbool false, u, d, fuel, rest, hu, hf, hr => by
    cases fuel with
    | zero => exact absurd hf (Nat.not_lt_zero _)
    | succ f =>
      have hsh : renderVal u d (Json.jbool false) ++ rest
          = 'f' :: 'a' :: 'l' :: 's' :: 'e' :: rest := by
        simp [renderVal]
      rw [hsh, parseValue_false]
      rfl
  | .jnum n, u, d, fuel, rest, hu, hf, hr => by
    cases fuel with
    | zero => exact absurd hf (Nat.not_lt_zero _)
    | succ f =>
      show parseValue (f + 1) (renderVal u d (Json.jnum n) ++ rest)
        = some (Json.jnum n, rest)
      by_cases hneg : n < 0
      · have hi : renderVal u d (Json.jnum n) = '-' :: natChars n.natAbs := by
          simp [renderVal, intChars, hneg]
        rw [hi, List.cons_append, parseValue_num_head f _ (Or.inl rfl), ← List.cons_append,
          ← hi]
        have hi2 : renderVal u d (Json.jnum n) = intChars n := rfl
        rw [hi2, parseNum_intChars n hr]
        rfl
      · obtain ⟨c, t, hct, hc⟩ := natChars_head n.natAbs
        have hi : renderVal u d (Json.jnum n) = c :: t := by
          simp [renderVal, intChars, hneg, hct]
        rw [hi, List.cons_append, parseValue_num_head f _ (Or.inr hc), ← List.cons_append,
          ← hi]
        have hi2 : renderVal u d (Json.jnum n) = intChars n := rfl
        rw [hi2, parseNum_intChars n hr]
        rfl
  | .jstr s, u, d, fuel, rest, hu, hf, hr => by
    cases fuel with
    | zero => exact absurd hf (Nat.not_lt_zero _)
    | succ f =>
      have hsh : renderVal u d (Json.jstr s) ++ rest
          = '"' :: (escList s.data ++ ('"' :: rest)) := by
        simp [renderVal, List.append_assoc]
      rw [hsh, parseValue_str]
      rfl
  | .jarr [], u, d, fuel, rest, hu, hf, hr => by
    cases fuel with
    | zero => exact absurd hf (Nat.not_lt_zero _)
    | succ f =>
      have hsh : renderVal u d (Json.jarr []) ++ rest = '[' :: ']' :: rest := by
        simp [renderVal]
      rw [hsh, parseValue_arr_nil]
      rfl
  | .jarr (y :: ys), u, d, fuel, rest, hu, hf, hr => by
    cases fuel with
    | zero => exact absurd hf (Nat.not_lt_zero _)
    | succ f =>
      obtain ⟨c, t, hct, hws, hbr, _⟩ := renderVal_head u (d + 1) y
      have hlen : (renderVal u (d + 1) y).length + (renderItems u (d + 1) ys).length + 1 < f := by
        simp only [renderVal, List.length_cons, List.length_append, nlInd] at hf
        omega
      have hkey := rtItems y ys u (d + 1) f (nlInd u d) rest hu (nlInd_ws hu d) hlen
      have hsh : renderVal u d (Json.jarr (y :: ys)) ++ rest
          = '[' :: (nlInd u (d + 1) ++ (renderVal u (d + 1) y
              ++ (renderItems u (d + 1) ys ++ (nlInd u d ++ (']' :: rest))))) := by
        simp [renderVal, List.append_assoc]
      rw [hsh]
      have hsk : skipWs (nlInd u (d + 1) ++ (renderVal u (d + 1) y
            ++ (renderItems u (d + 1) ys ++ (nlInd u d ++ (']' :: rest)))))
          = c :: (t ++ (renderItems u (d + 1) ys ++ (nlInd u d ++ (']' :: rest)))) := by
        rw [skipWs_nlInd hu, hct, List.cons_append, skipWs_cons_not hws]
      rw [parseValue_open_arr f hsk hbr, ← List.cons_append, ← hct, hkey]
      rfl
  | .jobj [], u, d, fuel, rest, hu, hf, hr => by
    cases fuel with
    | zero => exact absurd hf (Nat.not_lt_zero _)
    | succ f =>
      have hsh : renderVal u d (Json.jobj []) ++ rest = '\x7b' :: '\x7d' :: rest := by
        simp [renderVal]
      rw [hsh, parseValue_obj_nil]
      rfl
  | .jobj ((k, v) :: kvs), u, d, fuel, rest, hu, hf, hr => by
    cases fuel with
    | zero => exact absurd hf (Nat.not_lt_zero _)
    | succ f =>
      have hlen : (escList k.data).length + (renderVal u (d + 1) v).length
          + (renderFields u (d + 1) kvs).length + 4 < f := by
        simp only [renderVal, List.length_cons, List.length_append, nlInd] at hf
        omega
      have hkey := rtFields k v kvs u (d + 1) f (nlInd u d) rest hu (nlInd_ws hu d) hlen
      have hsh : renderVal u d (Json.jobj ((k, v) :: kvs)) ++ rest
          = '\x7b' :: (nlInd u (d + 1) ++ ('"' :: (escList k.data ++ ('"' :: (':' :: (' '
              :: (renderVal u (d + 1) v ++ (renderFields u (d + 1) kvs
                ++ (nlInd u d ++ ('\x7d' :: rest)))))))))) := by
        simp [renderVal, List.append_assoc]
      rw [hsh]
      have hsk : skipWs (nlInd u (d + 1) ++ ('"' :: (escList k.data ++ ('"' :: (':' :: (' '
            :: (renderVal u (d + 1) v ++ (renderFields u (d + 1) kvs
              ++ (nlInd u d ++ ('\x7d' :: rest))))))))))
          = '"' :: (escList k.data ++ ('"' :: (':' :: (' '
              :: (renderVal u (d + 1) v ++ (renderFields u (d + 1) kvs
                ++ (nlInd u d ++ ('\x7d' :: rest)))))))) := by
        rw [skipWs_nlInd hu, skipWs_cons_not (by decide)]
      rw [parseValue_open_obj f hsk (by decide), hkey]
      rfl
termination_by x => sizeOf x
decreasing_by
  all_goals simp_wf
  all_goals omega

/-- Parsing a rendered non-empty element run, a trailing whitespace block and
the closing bracket yields the canonical elements and the exact tail. -/
theorem rtItems : ∀ (y : Json) (ys : List Json) (u : List Char) (d fuel : Nat)
    (w rest : List Char),
    (∀ c ∈ u, isWsChar c = true) → (∀ c ∈ w, isWsChar c = true) →
    (renderVal u d y).length + (renderItems u d ys).length + 1 < fuel →
    parseItems fuel (renderVal u d y ++ (renderItems u d ys ++ (w ++ (']' :: rest))))
      = some (canonJson y :: canonList ys, rest)
  | y, [], u, d, fuel, w, rest, hu, hw, hf => by
    cases fuel with
    | zero => exact absurd hf (Nat.not_lt_zero _)
    | succ f =>
      have hnum : numSafe (renderItems u d ([] : List Json) ++ (w ++ (']' :: rest))) := by
        simp only [renderItems, List.nil_append]
        exact numSafe_ws_append hw (by decide) rest
      have hv := rtVal y u d f (renderItems u d ([] : List Json) ++ (w ++ (']' :: rest))) hu
        (by omega) hnum
      have e1 : parseItems (f + 1)
            (renderVal u d y ++ (renderItems u d ([] : List Json) ++ (w ++ (']' :: rest))))
          = match skipWs (renderItems u d ([] : List Json) ++ (w ++ (']' :: rest))) with
            | ',' :: r2 => (parseItems f (skipWs r2)).map (fun p => (canonJson y :: p.1, p.2))
            | ']' :: r2 => some ([canonJson y], r2)
            | _ => none := by
        rw [parseItems_step, hv]
      rw [e1]
      have hsk : skipWs (renderItems u d ([] : List Json) ++ (w ++ (']' :: rest)))
          = ']' :: rest := by
        simp only [renderItems, List.nil_append]
        rw [skipWs_append_ws hw]
        exact skipWs_cons_not (by decide)
      rw [hsk]
      rfl
  | y, z :: zs, u, d, fuel, w, rest, hu, hw, hf => by
    cases fuel with
    | zero => exact absurd hf (Nat.not_lt_zero _)
    | succ f =>
      have hnum : numSafe (renderItems u d (z :: zs) ++ (w ++ (']' :: rest))) := by
        simp only [renderItems, List.cons_append]
        exact numSafe_cons (by decide) _
      have hv := rtVal y u d f (renderItems u d (z :: zs) ++ (w ++ (']' :: rest))) hu
        (by omega) hnum
      have e1 : parseItems (f + 1)
            (renderVal u d y ++ (renderItems u d (z :: zs) ++ (w ++ (']' :: rest))))
          = match skipWs (renderItems u d (z :: zs) ++ (w ++ (']' :: rest))) with
            | ',' :: r2 => (parseItems f (skipWs r2)).map (fun p => (canonJson y :: p.1, p.2))
            | ']' :: r2 => some ([canonJson y], r2)
            | _ => none := by
        rw [parseItems_step, hv]
      rw [e1]
      have hsh : skipWs (renderItems u d (z :: zs) ++ (w ++ (']' :: rest)))
          = ',' :: (nlInd u d ++ (renderVal u d z
              ++ (renderItems u d zs ++ (w ++ (']' :: rest))))) := by
        have h0 : renderItems u d (z :: zs) ++ (w ++ (']' :: rest))
            = ',' :: (nlInd u d ++ (renderVal u d z
                ++ (renderItems u d zs ++ (w ++ (']' :: rest))))) := by
          simp [renderItems, List.append_assoc]
        rw [h0]
        exact skipWs_cons_not (by decide)
      rw [hsh]
      show (parseItems f (skipWs (nlInd u d ++ (renderVal u d z
            ++ (renderItems u d zs ++ (w ++ (']' :: rest))))))).map
          (fun p => (canonJson y :: p.1, p.2))
        = some (canonJson y :: canonList (z :: zs), rest)
      have hsk2 : skipWs (nlInd u d ++ (renderVal u d z
            ++ (renderItems u d zs ++ (w ++ (']' :: rest)))))
          = renderVal u d z ++ (renderItems u d zs ++ (w ++ (']' :: rest))) := by
        rw [skipWs_nlInd hu, skipWs_renderVal]
      have hlen2 : (renderVal u d z).length + (renderItems u d zs).length + 1 < f := by
        simp only [renderItems, List.length_cons, List.length_append, nlInd] at hf
        omega
      rw [hsk2, rtItems z zs u d f w rest hu hw hlen2]
      rfl
termination_by y ys => sizeOf y + sizeOf ys
decreasing_by
  all_goals simp_wf
  all_goals omega

/-- Parsing a rendered non-empty field run, a trailing whitespace block and
the closing brace yields the raw canonical-valued fields and the exact tail. -/
theorem rtFields : ∀ (k : String) (v : Json) (kvs : List (String × Json)) (u : List Char)
    (d fuel : Nat) (w rest : List Char),
    (∀ c ∈ u, isWsChar c = true) → (∀ c ∈ w, isWsChar c = true) →
    (escList k.data).length + (renderVal u d v).length
      + (renderFields u d kvs).length + 4 < fuel →
    parseFields fuel ('"' :: (escList k.data ++ ('"' :: (':' :: (' '
        :: (renderVal u d v ++ (renderFields u d kvs ++ (w ++ ('\x7d' :: rest)))))))))
      = some ((k, canonJson v) :: canonFields kvs, rest)
  | k, v, [], u, d, fuel, w, rest, hu, hw, hf => by
    cases fuel with
    | zero => exact absurd hf (Nat.not_lt_zero _)
    | succ g =>
      have e1 : parseFields (g + 1) ('"' :: (escList k.data ++ ('"' :: (':' :: (' '
            :: (renderVal u d v ++ (renderFields u d ([] : List (String × Json))
              ++ (w ++ ('\x7d' :: rest)))))))))
          = parseFieldsTail g k (':' :: (' '
            :: (renderVal u d v ++ (renderFields u d ([] : List (String × Json))
              ++ (w ++ ('\x7d' :: rest)))))) := by
        simp only [parseFields]
        rw [parseStrBody_escList]
      rw [e1]
      cases g with
      | zero => exact absurd hf (by omega)
      | succ f =>
        have hnum : numSafe (renderFields u d ([] : List (String × Json))
            ++ (w ++ ('\x7d' :: rest))) := by
          simp only [renderFields, List.nil_append]
          exact numSafe_ws_append hw (by decide) rest
        have hv := rtVal v u d f (renderFields u d ([] : List (String × Json))
          ++ (w ++ ('\x7d' :: rest))) hu (by omega) hnum
        have e2 : parseFieldsTail (f + 1) k (':' :: (' '
              :: (renderVal u d v ++ (renderFields u d ([] : List (String × Json))
                ++ (w ++ ('\x7d' :: rest))))))
            = match parseValue f (renderVal u d v
                ++ (renderFields u d ([] : List (String × Json))
                  ++ (w ++ ('\x7d' :: rest)))) with
              | none => none
              | some (v2, r3) =>
                match skipWs r3 with
                | ',' :: r4 => (parseFields f (skipWs r4)).map (fun p => ((k, v2) :: p.1, p.2))
                | '\x7d' :: r4 => some ([(k, v2)], r4)
                | _ => none := by
          have h0 : parseFieldsTail (f + 1) k (':' :: (' '
                :: (renderVal u d v ++ (renderFields u d ([] : List (String × Json))
                  ++ (w ++ ('\x7d' :: rest))))))
              = match parseValue f (skipWs (renderVal u d v
                  ++ (renderFields u d ([] : List (String × Json))
                    ++ (w ++ ('\x7d' :: rest))))) with
                | none => none
                | some (v2, r3) =>
                  match skipWs r3 with
                  | ',' :: r4 =>
                    (parseFields f (skipWs r4)).map (fun p => ((k, v2) :: p.1, p.2))
                  | '\x7d' :: r4 => some ([(k, v2)], r4)
                  | _ => none := rfl
          rw [h0, skipWs_renderVal]
        rw [e2, hv]
        show (match skipWs (renderFields u d ([] : List (String × Json))
              ++ (w ++ ('\x7d' :: rest))) with
            | ',' :: r4 =>
              (parseFields f (skipWs r4)).map (fun p => ((k, canonJson v) :: p.1, p.2))
            | '\x7d' :: r4 => some ([(k, canonJson v)], r4)
            | _ => none)
          = some ((k, canonJson v) :: canonFields [], rest)
        have hsk : skipWs (renderFields u d ([] : List (String × Json))
              ++ (w ++ ('\x7d' :: rest))) = '\x7d' :: rest := by
          simp only [renderFields, List.nil_append]
          rw [skipWs_append_ws hw]
          exact skipWs_cons_not (by decide)
        rw [hsk]
        rfl
  | k, v, (k2, v2) :: kvs2, u, d, fuel, w, rest, hu, hw, hf => by
    cases fuel with
    | zero => exact absurd hf (Nat.not_lt_zero _)
    | succ g =>
      have e1 : parseFields (g + 1) ('"' :: (escList k.data ++ ('"' :: (':' :: (' '
            :: (renderVal u d v ++ (renderFields u d ((k2, v2) :: kvs2)
              ++ (w ++ ('\x7d' :: rest)))))))))
          = parseFieldsTail g k (':' :: (' '
            :: (renderVal u d v ++ (renderFields u d ((k2, v2) :: kvs2)
              ++ (w ++ ('\x7d' :: rest)))))) := by
        simp only [parseFields]
        rw [parseStrBody_escList]
      rw [e1]
      cases g with
      | zero => exact absurd hf (by omega)
      | succ f =>
        have hnum : numSafe (renderFields u d ((k2, v2) :: kvs2)
            ++ (w ++ ('\x7d' :: rest))) := by
          simp only [renderFields, List.cons_append]
          exact numSafe_cons (by decide) _
        have hv := rtVal v u d f (renderFields u d ((k2, v2) :: kvs2)
          ++ (w ++ ('\x7d' :: rest))) hu (by omega) hnum
        have e2 : parseFieldsTail (f + 1) k (':' :: (' '
              :: (renderVal u d v ++ (renderFields u d ((k2, v2) :: kvs2)
                ++ (w ++ ('\x7d' :: rest))))))
            = match parseValue f (renderVal u d v
                ++ (renderFields u d ((k2, v2) :: kvs2)
                  ++ (w ++ ('\x7d' :: rest)))) with
              | none => none
              | some (v3, r3) =>
                match skipWs r3 with
                | ',' :: r4 => (parseFields f (skipWs r4)).map (fun p => ((k, v3) :: p.1, p.2))
                | '\x7d' :: r4 => some ([(k, v3)], r4)
                | _ => none := by
          have h0 : parseFieldsTail (f + 1) k (':' :: (' '
                :: (renderVal u d v ++ (renderFields u d ((k2, v2) :: kvs2)
                  ++ (w ++ ('\x7d' :: rest))))))
              = match parseValue f (skipWs (renderVal u d v
                  ++ (renderFields u d ((k2, v2) :: kvs2)
                    ++ (w ++ ('\x7d' :: rest))))) with
                | none => none
                | some (v3, r3) =>
                  match skipWs r3 with
                  | ',' :: r4 =>
                    (parseFields f (skipWs r4)).map (fun p => ((k, v3) :: p.1, p.2))
                  | '\x7d' :: r4 => some ([(k, v3)], r4)
                  | _ => none := rfl
          rw [h0, skipWs_renderVal]
        rw [e2, hv]
        show (match skipWs (renderFields u d ((k2, v2) :: kvs2)
              ++ (w ++ ('\x7d' :: rest))) with
            | ',' :: r4 =>
              (parseFields f (skipWs r4)).map (fun p => ((k, canonJson v) :: p.1, p.2))
            | '\x7d' :: r4 => some ([(k, canonJson v)], r4)
            | _ => none)
          = some ((k, canonJson v) :: canonFields ((k2, v2) :: kvs2), rest)
        have hsh : skipWs (renderFields u d ((k2, v2) :: kvs2) ++ (w ++ ('\x7d' :: rest)))
            = ',' :: (nlInd u d ++ ('"' :: (escList k2.data ++ ('"' :: (':' :: (' '
                :: (renderVal u d v2 ++ (renderFields u d kvs2
                  ++ (w ++ ('\x7d' :: rest)))))))))) := by
          have h0 : renderFields u d ((k2, v2) :: kvs2) ++ (w ++ ('\x7d' :: rest))
              = ',' :: (nlInd u d ++ ('"' :: (escList k2.data ++ ('"' :: (':' :: (' '
                  :: (renderVal u d v2 ++ (renderFields u d kvs2
                    ++ (w ++ ('\x7d' :: rest)))))))))) := by
            simp [renderFields, List.append_assoc]
          rw [h0]
          exact skipWs_cons_not (by decide)
        rw [hsh]
        show (parseFields f (skipWs (nlInd u d ++ ('"' :: (escList k2.data ++ ('"' :: (':'
              :: (' ' :: (renderVal u d v2 ++ (renderFields u d kvs2
                ++ (w ++ ('\x7d' :: rest)))))))))))).map
            (fun p => ((k, canonJson v) :: p.1, p.2))
          = some ((k, canonJson v) :: canonFields ((k2, v2) :: kvs2), rest)
        have hsk2 : skipWs (nlInd u d ++ ('"' :: (escList k2.data ++ ('"' :: (':' :: (' '
              :: (renderVal u d v2 ++ (renderFields u d kvs2
                ++ (w ++ ('\x7d' :: rest))))))))))
            = '"' :: (escList k2.data ++ ('"' :: (':' :: (' '
                :: (renderVal u d v2 ++ (renderFields u d kvs2
                  ++ (w ++ ('\x7d' :: rest)))))))) := by
          rw [skipWs_nlInd hu]
          exact skipWs_cons_not (by decide)
        have hlen2 : (escList k2.data).length + (renderVal u d v2).length
            + (renderFields u d kvs2).length + 4 < f := by
          simp only [renderFields, List.length_cons, List.length_append, nlInd] at hf
          omega
        rw [hsk2, rtFields k2 v2 kvs2 u d f w rest hu hw hlen2]
        rfl
termination_by _k v kvs => sizeOf v + sizeOf kvs
decreasing_by
  all_goals simp_wf
  all_goals omega
end

end Osctrl

namespace Osctrl

/-- Both indent units of GenSerializedConf are whitespace-only. -/
theorem wsUnit (b : Bool) : ∀ c ∈ (if b then [' ', ' '] else ([] : List Char)),
    isWsChar c = true := by
  cases b
  · intro c hc
    simp at hc
  · intro c hc
    simp at hc
    subst hc
    rfl

/-- Parsing a whole rendered document yields the canonical form of the value. -/
theorem parseJsonText_renderVal (u : List Char) (hu : ∀ c ∈ u, isWsChar c = true) (x : Json) :
    parseJsonText (String.mk (renderVal u 0 x)) = some (canonJson x) := by
  obtain ⟨c, t, hct, hws, _, _⟩ := renderVal_head u 0 x
  have hsk : skipWs (renderVal u 0 x) = renderVal u 0 x := by
    rw [hct]
    exact skipWs_cons_not hws
  have hp := rtVal x u 0 ((renderVal u 0 x).length + 1) [] hu (by omega) trivial
  rw [List.append_nil] at hp
  show (match parseValue ((renderVal u 0 x).length + 1) (skipWs (renderVal u 0 x)) with
        | some (v, r) => if (skipWs r).isEmpty then some v else none
        | none => none) = some (canonJson x)
  rw [hsk, hp]
  rfl

/-- GenSerializedConf always succeeds and its output decodes to the canonical
form of the marshalled value. -/
theorem GenSerializedConf_ok (x : Json) (b : Bool) :
    ∃ s, GenSerializedConf x b = .ok s ∧ parseJsonText s = some (canonJson x) :=
  ⟨_, rfl, parseJsonText_renderVal _ (wsUnit b) x⟩

/-! ## Parsed values are canonical -/

mutual
/-- Every value the parser produces is its own canonical form. -/
theorem parseValue_canon : ∀ (fuel : Nat) (cs : List Char) (v : Json) (r : List Char),
    parseValue fuel cs = some (v, r) → canonJson v = v
  | 0, cs, v, r, h => by simp [parseValue] at h
  | fuel + 1, cs, v, r, h => by
    cases cs with
    | nil => simp [parseValue] at h
    | cons c r0 =>
    simp only [parseValue] at h
    repeat' split at h
    all_goals first
      | (simp only [Option.map_eq_some'] at h
         obtain ⟨p, hp, he⟩ := h
         injection he with he1 he2
         subst he1
         first
           | rfl
           | (simp only [canonJson]
              rw [parseItems_canon fuel _ _ _ hp])
           | (simp only [canonJson]
              have hvals := parseFields_canon fuel _ _ _ hp
              have hcf : canonFields (sortFields p.1) = sortFields p.1 :=
                canonFields_id (fun a ha => hvals a (sortFields_mem ha))
              rw [hcf, sortFields_of_sorted (sortFields_sorted p.1)]))
      | (simp only [Option.some.injEq, Prod.mk.injEq] at h
         obtain ⟨he1, he2⟩ := h
         subst he1
         rfl)
      | simp at h
termination_by fuel => fuel
/-- Every element list the parser produces is elementwise canonical. -/
theorem parseItems_canon : ∀ (fuel : Nat) (cs : List Char) (vs : List Json) (r : List Char),
    parseItems fuel cs = some (vs, r) → canonList vs = vs
  | 0, cs, vs, r, h => by simp [parseItems] at h
  | fuel + 1, cs, vs, r, h => by
    simp only [parseItems] at h
    split at h
    · exact absurd h (by simp)
    · rename_i v0 r0 heq0
      split at h
      · rename_i r2
        simp only [Option.map_eq_some'] at h
        obtain ⟨p, hp, he⟩ := h
        injection he with he1 he2
        subst he1
        simp only [canonList]
        rw [parseValue_canon fuel _ _ _ heq0, parseItems_canon fuel _ _ _ hp]
      · rename_i r2
        simp only [Option.some.injEq, Prod.mk.injEq] at h
        obtain ⟨he1, he2⟩ := h
        subst he1
        simp only [canonList, canonJson]
        rw [parseValue_canon fuel _ _ _ heq0]
      · exact absurd h (by simp)
termination_by fuel => fuel
/-- Every field list the parser produces is valuewise canonical. -/
theorem parseFields_canon : ∀ (fuel : Nat) (cs : List Char) (kvs : List (String × Json))
    (r : List Char), parseFields fuel cs = some (kvs, r) → ∀ a ∈ kvs, canonJson a.2 = a.2
  | 0, cs, kvs, r, h => by simp [parseFields] at h
  | fuel + 1, cs, kvs, r, h => by
    simp only [parseFields] at h
    repeat' split at h
    all_goals first
      | exact parseFieldsTail_canon fuel _ _ _ _ h
      | simp at h
termination_by fuel => fuel
/-- Every field list the tail parser produces is valuewise canonical. -/
theorem parseFieldsTail_canon : ∀ (fuel : Nat) (key : String) (cs : List Char)
    (kvs : List (String × Json)) (r : List Char),
    parseFieldsTail fuel key cs = some (kvs, r) → ∀ a ∈ kvs, canonJson a.2 = a.2
  | 0, key, cs, kvs, r, h => by simp [parseFieldsTail] at h
  | fuel + 1, key, cs, kvs, r, h => by
    simp only [parseFieldsTail] at h
    split at h
    · rename_i r2
      split at h
      · exact absurd h (by simp)
      · rename_i v0 r3 heq0
        split at h
        · rename_i r4
          simp only [Option.map_eq_some'] at h
          obtain ⟨p, hp, he⟩ := h
          injection he with he1 he2
          subst he1
          intro a ha
          rcases List.mem_cons.mp ha with ha | ha
          · subst ha
            exact parseValue_canon fuel _ _ _ heq0
          · exact parseFields_canon fuel _ _ _ hp a ha
        · rename_i r4
          simp only [Option.some.injEq, Prod.mk.injEq] at h
          obtain ⟨he1, he2⟩ := h
          subst he1
          intro a ha
          rcases List.mem_cons.mp ha with ha | ha
          · subst ha
            exact parseValue_canon fuel _ _ _ heq0
          · simp at ha
        · exact absurd h (by simp)
    · exact absurd h (by simp)
termination_by fuel => fuel
end

end Osctrl

namespace Osctrl

/-! ## Lookup in marshalled struct field lists -/

/-- Lookup skips an optional block with a different key (omit-on-zero form). -/
theorem getField_skip_block {α : Type} {k k2 : String} (hne : k ≠ k2) (c : Prop)
    [Decidable c] (x : α) (R : List (String × α)) :
    getField k ((if c then [] else [(k2, x)]) ++ R) = getField k R := by
  split <;> simp [getField, hne]

/-- Lookup skips an optional block with a different key (emit-on-set form). -/
theorem getField_skip_block2 {α : Type} {k k2 : String} (hne : k ≠ k2) (c : Prop)
    [Decidable c] (x : α) (R : List (String × α)) :
    getField k ((if c then [(k2, x)] else []) ++ R) = getField k R := by
  split <;> simp [getField, hne]

/-- Lookup hits an optional block with its own key (omit-on-zero form). -/
theorem getField_hit_block {α : Type} (k : String) (c : Prop) [Decidable c] (x : α)
    (R : List (String × α)) (hR : getField k R = none) :
    getField k ((if c then [] else [(k, x)]) ++ R) = if c then none else some x := by
  split <;> simp [getField, hR]

/-- Lookup hits an optional block with its own key (emit-on-set form). -/
theorem getField_hit_block2 {α : Type} (k : String) (c : Prop) [Decidable c] (x : α)
    (R : List (String × α)) (hR : getField k R = none) :
    getField k ((if c then [(k, x)] else []) ++ R) = if c then some x else none := by
  split <;> simp [getField, hR]

/-- Lookup in a final optional block with a different key (emit-on-set form). -/
theorem getField_last2_ne {α : Type} {k k2 : String} (hne : k ≠ k2) (c : Prop)
    [Decidable c] (x : α) :
    getField k (if c then [(k2, x)] else []) = none := by
  split <;> simp [getField, hne]

/-- Lookup in a final optional block with its own key (emit-on-set form). -/
theorem getField_last2 {α : Type} (k : String) (c : Prop) [Decidable c] (x : α) :
    getField k (if c then [(k, x)] else []) = if c then some x else none := by
  split <;> simp [getField]

/-- Lookup in a final optional block with a different key (omit-on-zero form). -/
theorem getField_last1_ne {α : Type} {k k2 : String} (hne : k ≠ k2) (c : Prop)
    [Decidable c] (x : α) :
    getField k (if c then [] else [(k2, x)]) = none := by
  split <;> simp [getField, hne]

/-- Lookup in a final optional block with its own key (omit-on-zero form). -/
theorem getField_last1 {α : Type} (k : String) (c : Prop) [Decidable c] (x : α) :
    getField k (if c then [] else [(k, x)]) = if c then none else some x := by
  split <;> simp [getField]

/-! ## ScheduleQuery marshal and unmarshal -/

/-- The query field of a marshalled entry. -/
theorem sq_get_query (q : ScheduleQuery) :
    getField "query" (sqFields q) = if q.query = "" then none else some (Json.jstr q.query) := by
  unfold sqFields
  simp only [List.append_assoc]
  rw [getField_hit_block]
  rw [getField_skip_block (by decide), getField_skip_block2 (by decide),
    getField_skip_block2 (by decide), getField_skip_block (by decide),
    getField_skip_block (by decide), getField_skip_block (by decide),
    getField_last2_ne (by decide)]

/-- The interval field of a marshalled entry. -/
theorem sq_get_interval (q : ScheduleQuery) :
    getField "interval" (sqFields q)
      = if q.interval = 0 then none else some (Json.jnum q.interval) := by
  unfold sqFields
  simp only [List.append_assoc]
  rw [getField_skip_block (by decide), getField_hit_block]
  rw [getField_skip_block2 (by decide), getField_skip_block2 (by decide),
    getField_skip_block (by decide), getField_skip_block (by decide),
    getField_skip_block (by decide), getField_last2_ne (by decide)]

/-- The removed field of a marshalled entry. -/
theorem sq_get_removed (q : ScheduleQuery) :
    getField "removed" (sqFields q)
      = if q.removed then some (Json.jbool true) else none := by
  unfold sqFields
  simp only [List.append_assoc]
  rw [getField_skip_block (by decide), getField_skip_block (by decide), getField_hit_block2]
  rw [getField_skip_block2 (by decide), getField_skip_block (by decide),
    getField_skip_block (by decide), getField_skip_block (by decide),
    getField_last2_ne (by decide)]

/-- The snapshot field of a marshalled entry. -/
theorem sq_get_snapshot (q : ScheduleQuery) :
    getField "snapshot" (sqFields q)
      = if q.snapshot then some (Json.jbool true) else none := by
  unfold sqFields
  simp only [List.append_assoc]
  rw [getField_skip_block (by decide), getField_skip_block (by decide),
    getField_skip_block2 (by decide), getField_hit_block2]
  rw [getField_skip_block (by decide), getField_skip_block (by decide),
    getField_skip_block (by decide), getField_last2_ne (by decide)]

/-- The platform field of a marshalled entry. -/
theorem sq_get_platform (q : ScheduleQuery) :
    getField "platform" (sqFields q)
      = if q.platform = "" then none else some (Json.jstr q.platform) := by
  unfold sqFields
  simp only [List.append_assoc]
  rw [getField_skip_block (by decide), getField_skip_block (by decide),
    getField_skip_block2 (by decide), getField_skip_block2 (by decide), getField_hit_block]
  rw [getField_skip_block (by decide), getField_skip_block (by decide),
    getField_last2_ne (by decide)]

/-- The version field of a marshalled entry. -/
theorem sq_get_version (q : ScheduleQuery) :
    getField "version" (sqFields q)
      = if q.version = "" then none else some (Json.jstr q.version) := by
  unfold sqFields
  simp only [List.append_assoc]
  rw [getField_skip_block (by decide), getField_skip_block (by decide),
    getField_skip_block2 (by decide), getField_skip_block2 (by decide),
    getField_skip_block (by decide), getField_hit_block]
  rw [getField_skip_block (by decide), getField_last2_ne (by decide)]

/-- The shard field of a marshalled entry. -/
theorem sq_get_shard (q : ScheduleQuery) :
    getField "shard" (sqFields q)
      = if q.shard = 0 then none else some (Json.jnum q.shard) := by
  unfold sqFields
  simp only [List.append_assoc]
  rw [getField_skip_block (by decide), getField_skip_block (by decide),
    getField_skip_block2 (by decide), getField_skip_block2 (by decide),
    getField_skip_block (by decide), getField_skip_block (by decide), getField_hit_block]
  rw [getField_last2_ne (by decide)]

/-- The denylist field of a marshalled entry. -/
theorem sq_get_denylist (q : ScheduleQuery) :
    getField "denylist" (sqFields q)
      = if q.denylist then some (Json.jbool true) else none := by
  unfold sqFields
  simp only [List.append_assoc]
  rw [getField_skip_block (by decide), getField_skip_block (by decide),
    getField_skip_block2 (by decide), getField_skip_block2 (by decide),
    getField_skip_block (by decide), getField_skip_block (by decide),
    getField_skip_block (by decide), getField_last2]

end Osctrl

namespace Osctrl

/-! ## Typed fragment round trips -/

/-- Unmarshal of an optional string field emitted under omitempty. -/
theorem unmarshalStr_opt (s : String) :
    unmarshalStr (if s = "" then none else some (Json.jstr s)) = .ok s := by
  split
  · rename_i h
    rw [h]
    rfl
  · rfl

/-- Unmarshal of an optional int field emitted under omitempty. -/
theorem unmarshalInt_opt (n : Int) :
    unmarshalInt (if n = 0 then none else some (Json.jnum n)) = .ok n := by
  split
  · rename_i h
    rw [h]
    rfl
  · rfl

/-- Unmarshal of an optional bool field emitted under omitempty. -/
theorem unmarshalBool_opt (b : Bool) :
    unmarshalBool (if b then some (Json.jbool true) else none) = .ok b := by
  cases b <;> rfl

/-- String slices survive the marshal-unmarshal pair elementwise. -/
theorem strListOf_map (l : List String) : strListOf (l.map Json.jstr) = .ok l := by
  induction l with
  | nil => rfl
  | cons s rest ih => simp [strListOf, ih, Except.map]

/-- Unmarshal of an optional string-slice field emitted under omitempty. -/
theorem unmarshalStrList_opt (l : List String) :
    unmarshalStrList (if l = [] then none else some (strArr l)) = .ok l := by
  split
  · rename_i h
    rw [h]
    rfl
  · simp [unmarshalStrList, strArr, strListOf_map]

/-- A marshalled string array is canonical. -/
theorem strArr_canon (l : List String) : canonJson (strArr l) = strArr l := by
  simp only [strArr, canonJson]
  congr 1
  induction l with
  | nil => rfl
  | cons s rest ih => simp [canonList, canonJson, ih]

/-- The marshalled entry's keys form a sublist of the eight field names. -/
theorem sqFields_keys_sublist (q : ScheduleQuery) :
    ((sqFields q).map Prod.fst).Sublist
      ["query", "interval", "removed", "snapshot", "platform", "version", "shard",
        "denylist"] := by
  have htgt : (["query", "interval", "removed", "snapshot", "platform", "version", "shard",
      "denylist"] : List String)
      = ["query"] ++ (["interval"] ++ (["removed"] ++ (["snapshot"] ++ (["platform"]
        ++ (["version"] ++ (["shard"] ++ ["denylist"])))))) := rfl
  rw [htgt]
  unfold sqFields
  simp only [List.append_assoc, List.map_append]
  refine List.Sublist.append ?_ (List.Sublist.append ?_ (List.Sublist.append ?_
    (List.Sublist.append ?_ (List.Sublist.append ?_ (List.Sublist.append ?_
      (List.Sublist.append ?_ ?_)))))) <;> (split <;> simp)

/-- The marshalled entry has duplicate-free keys. -/
theorem sqFields_nodup (q : ScheduleQuery) : keysNodup (sqFields q) := by
  have h : ((sqFields q).map Prod.fst).Nodup :=
    (by decide : (["query", "interval", "removed", "snapshot", "platform", "version",
      "shard", "denylist"] : List String).Nodup).sublist (sqFields_keys_sublist q)
  exact List.pairwise_map.mp h

/-- The marshalled entry's values are scalar, hence canonical. -/
theorem sqFields_vals (q : ScheduleQuery) : ∀ a ∈ sqFields q, canonJson a.2 = a.2 := by
  intro a ha
  unfold sqFields at ha
  simp only [List.append_assoc, List.mem_append] at ha
  rcases ha with ha | ha | ha | ha | ha | ha | ha | ha <;>
    (split at ha <;> simp at ha) <;> (subst ha; rfl)

/-- Unmarshalling the canonical form of a marshalled entry recovers it. -/
theorem scheduleQueryOfJson_canon (q : ScheduleQuery) :
    scheduleQueryOfJson (canonJson (ScheduleQuery.toJson q)) = .ok q := by
  have hcanon : canonJson (ScheduleQuery.toJson q) = Json.jobj (sortFields (sqFields q)) := by
    simp only [ScheduleQuery.toJson, canonJson]
    rw [canonFields_id (sqFields_vals q)]
  rw [hcanon]
  have hnd := sqFields_nodup q
  simp only [scheduleQueryOfJson]
  rw [getField_sortFields hnd, getField_sortFields hnd, getField_sortFields hnd,
    getField_sortFields hnd, getField_sortFields hnd, getField_sortFields hnd,
    getField_sortFields hnd, getField_sortFields hnd]
  rw [sq_get_query, sq_get_interval, sq_get_removed, sq_get_snapshot, sq_get_platform,
    sq_get_version, sq_get_shard, sq_get_denylist]
  rw [unmarshalStr_opt, unmarshalInt_opt, unmarshalBool_opt, unmarshalBool_opt,
    unmarshalStr_opt, unmarshalStr_opt, unmarshalInt_opt, unmarshalBool_opt]
  rfl

/-- The nil-or-value interval read-back. -/
theorem interval_match (j : Json) :
    (match (if j.isNull then none else some j : Option Json) with
      | none => Json.null
      | some x => x) = j := by
  cases j <;> rfl

/-- The load field of marshalled decorators. -/
theorem dc_get_load (dc : DecoratorConf) :
    getField "load" (dcFields dc) = if dc.load = [] then none else some (strArr dc.load) := by
  unfold dcFields
  simp only [List.append_assoc]
  rw [getField_hit_block]
  rw [getField_skip_block (by decide), getField_last1_ne (by decide)]

/-- The always field of marshalled decorators. -/
theorem dc_get_always (dc : DecoratorConf) :
    getField "always" (dcFields dc)
      = if dc.always = [] then none else some (strArr dc.always) := by
  unfold dcFields
  simp only [List.append_assoc]
  rw [getField_skip_block (by decide), getField_hit_block]
  rw [getField_last1_ne (by decide)]

/-- The interval field of marshalled decorators. -/
theorem dc_get_interval (dc : DecoratorConf) :
    getField "interval" (dcFields dc)
      = if dc.interval.isNull then none else some dc.interval := by
  unfold dcFields
  simp only [List.append_assoc]
  rw [getField_skip_block (by decide), getField_skip_block (by decide), getField_last1]

/-- The marshalled decorators have duplicate-free keys. -/
theorem dcFields_nodup (dc : DecoratorConf) : keysNodup (dcFields dc) := by
  have htgt : (["load", "always", "interval"] : List String)
      = ["load"] ++ (["always"] ++ ["interval"]) := rfl
  have hsub : ((dcFields dc).map Prod.fst).Sublist ["load", "always", "interval"] := by
    rw [htgt]
    unfold dcFields
    simp only [List.append_assoc, List.map_append]
    refine List.Sublist.append ?_ (List.Sublist.append ?_ ?_) <;> (split <;> simp)
  have h : ((dcFields dc).map Prod.fst).Nodup :=
    (by decide : (["load", "always", "interval"] : List String).Nodup).sublist hsub
  exact List.pairwise_map.mp h

/-- The marshalled decorators' values are canonical when the interval is. -/
theorem dcFields_vals (dc : DecoratorConf) (hiv : canonJson dc.interval = dc.interval) :
    ∀ a ∈ dcFields dc, canonJson a.2 = a.2 := by
  intro a ha
  unfold dcFields at ha
  simp only [List.append_assoc, List.mem_append] at ha
  rcases ha with ha | ha | ha <;> (split at ha <;> simp at ha) <;> subst ha
  · exact strArr_canon dc.load
  · exact strArr_canon dc.always
  · exact hiv

/-- Unmarshalling the canonical form of marshalled decorators recovers them. -/
theorem decoratorOfJson_canon (dc : DecoratorConf)
    (hiv : canonJson dc.interval = dc.interval) :
    decoratorOfJson (canonJson (DecoratorConf.toJson dc)) = .ok dc := by
  have hcanon : canonJson (DecoratorConf.toJson dc) = Json.jobj (sortFields (dcFields dc)) := by
    simp only [DecoratorConf.toJson, canonJson]
    rw [canonFields_id (dcFields_vals dc hiv)]
  rw [hcanon]
  have hnd := dcFields_nodup dc
  simp only [decoratorOfJson]
  rw [getField_sortFields hnd, getField_sortFields hnd, getField_sortFields hnd]
  rw [dc_get_load, dc_get_always, dc_get_interval]
  rw [unmarshalStrList_opt, unmarshalStrList_opt]
  simp only [bind, Except.bind]
  rw [interval_match]

end Osctrl

namespace Osctrl

/-- Key order survives mapping the values. -/
theorem keysSorted_map {α β : Type} (g : α → β) {m : List (String × α)}
    (h : keysSorted m) : keysSorted (m.map (fun p => (p.1, g p.2))) := by
  unfold keysSorted at h ⊢
  rw [List.pairwise_map]
  exact h

/-- Canonicalizing a marshalled schedule canonicalizes each entry. -/
theorem canonFields_scheduleFields (m : ScheduleConf) :
    canonFields (scheduleFields m)
      = m.map (fun p => (p.1, canonJson (ScheduleQuery.toJson p.2))) := by
  induction m with
  | nil => rfl
  | cons b rest ih =>
    obtain ⟨k, q⟩ := b
    simp [scheduleFields, canonFields, ih]
    simpa [scheduleFields] using ih

/-- Unmarshalling canon-marshalled schedule entries recovers the map. -/
theorem scheduleOfFields_canon (m : ScheduleConf) :
    scheduleOfFields (m.map (fun p => (p.1, canonJson (ScheduleQuery.toJson p.2))))
      = .ok m := by
  induction m with
  | nil => rfl
  | cons b rest ih =>
    obtain ⟨k, q⟩ := b
    simp only [List.map_cons, scheduleOfFields, scheduleQueryOfJson_canon, ih, bind,
      Except.bind]

/-- A canonical schedule map survives marshal, canon, unmarshal. -/
theorem scheduleToJson_decode (m : ScheduleConf) (hs : keysSorted m) :
    scheduleOfJson (canonJson (scheduleToJson m)) = .ok m := by
  have h1 : canonJson (scheduleToJson m)
      = Json.jobj (sortFields (canonFields (scheduleFields m))) := rfl
  rw [h1, canonFields_scheduleFields]
  have h2 : sortFields (m.map (fun p => (p.1, canonJson (ScheduleQuery.toJson p.2))))
      = m.map (fun p => (p.1, canonJson (ScheduleQuery.toJson p.2))) :=
    sortFields_of_sorted (keysSorted_map (fun q => canonJson (ScheduleQuery.toJson q)) hs)
  rw [h2]
  exact scheduleOfFields_canon m

/-- Serializing a canonical object parses back to itself. -/
theorem serialize_parse_jobj (l : List (String × Json)) (b : Bool)
    (hs : keysSorted l) (hv : ∀ a ∈ l, canonJson a.2 = a.2) :
    ∃ s, GenSerializedConf (Json.jobj l) b = .ok s
      ∧ parseJsonText s = some (Json.jobj l) := by
  obtain ⟨s, h1, h2⟩ := GenSerializedConf_ok (Json.jobj l) b
  exact ⟨s, h1, by rw [h2, canonJson_jobj_id hs hv]⟩

/-- Round trip of an options fragment through serialize and GenStructOptions. -/
theorem GenStructOptions_roundtrip (m : OptionsConf) (b : Bool)
    (hs : keysSorted m) (hv : ∀ a ∈ m, canonJson a.2 = a.2) :
    ∃ s, GenSerializedConf (Json.jobj m) b = .ok s ∧ GenStructOptions s = .ok m := by
  obtain ⟨s, h1, h2⟩ := serialize_parse_jobj m b hs hv
  refine ⟨s, h1, ?_⟩
  simp [GenStructOptions, parseStage, h2, bind, Except.bind, mapOfJson]

/-- Round trip of a packs fragment through serialize and GenStructPacks. -/
theorem GenStructPacks_roundtrip (m : PacksConf) (b : Bool)
    (hs : keysSorted m) (hv : ∀ a ∈ m, canonJson a.2 = a.2) :
    ∃ s, GenSerializedConf (Json.jobj m) b = .ok s ∧ GenStructPacks s = .ok m := by
  obtain ⟨s, h1, h2⟩ := serialize_parse_jobj m b hs hv
  refine ⟨s, h1, ?_⟩
  simp [GenStructPacks, parseStage, h2, bind, Except.bind, mapOfJson]

/-- Round trip of an ATC fragment through serialize and GenStructATC. -/
theorem GenStructATC_roundtrip (m : ATCConf) (b : Bool)
    (hs : keysSorted m) (hv : ∀ a ∈ m, canonJson a.2 = a.2) :
    ∃ s, GenSerializedConf (Json.jobj m) b = .ok s ∧ GenStructATC s = .ok m := by
  obtain ⟨s, h1, h2⟩ := serialize_parse_jobj m b hs hv
  refine ⟨s, h1, ?_⟩
  simp [GenStructATC, parseStage, h2, bind, Except.bind, mapOfJson]

/-- Round trip of a schedule fragment through serialize and GenStructSchedule. -/
theorem GenStructSchedule_roundtrip (m : ScheduleConf) (b : Bool)
    (hs : keysSorted m) :
    ∃ s, GenSerializedConf (scheduleToJson m) b = .ok s
      ∧ GenStructSchedule s = .ok m := by
  obtain ⟨s, h1, h2⟩ := GenSerializedConf_ok (scheduleToJson m) b
  refine ⟨s, h1, ?_⟩
  simp only [GenStructSchedule, parseStage, h2, bind, Except.bind]
  exact scheduleToJson_decode m hs

/-- Round trip of a decorators fragment through serialize and
GenStructDecorators. -/
theorem GenStructDecorators_roundtrip (dc : DecoratorConf) (b : Bool)
    (hiv : canonJson dc.interval = dc.interval) :
    ∃ s, GenSerializedConf (DecoratorConf.toJson dc) b = .ok s
      ∧ GenStructDecorators s = .ok dc := by
  obtain ⟨s, h1, h2⟩ := GenSerializedConf_ok (DecoratorConf.toJson dc) b
  refine ⟨s, h1, ?_⟩
  simp only [GenStructDecorators, parseStage, h2, bind, Except.bind]
  exact decoratorOfJson_canon dc hiv

/-- A Go value is faithfully represented: maps sorted with canonical opaque
values, and the decorator interval canonical. -/
def WfConf (c : OsqueryConf) : Prop :=
  keysSorted c.options ∧ (∀ a ∈ c.options, canonJson a.2 = a.2)
    ∧ keysSorted c.schedule
    ∧ keysSorted c.packs ∧ (∀ a ∈ c.packs, canonJson a.2 = a.2)
    ∧ canonJson c.decorators.interval = c.decorators.interval
    ∧ keysSorted c.atc ∧ (∀ a ∈ c.atc, canonJson a.2 = a.2)

/-- Sorting the five fixed top-level keys yields byte order. -/
theorem sortFields_conf (o s p d a : Json) :
    sortFields [("options", o), ("schedule", s), ("packs", p), ("decorators", d),
        ("auto_table_construction", a)]
      = [("auto_table_construction", a), ("decorators", d), ("options", o),
        ("packs", p), ("schedule", s)] := rfl

/-- The canonical form of a marshalled configuration: five keys in byte
order, each value canonicalized. -/
theorem canonJson_confToJson (c : OsqueryConf) :
    canonJson (OsqueryConf.toJson c)
      = Json.jobj [("auto_table_construction", canonJson (Json.jobj c.atc)),
          ("decorators", canonJson (DecoratorConf.toJson c.decorators)),
          ("options", canonJson (Json.jobj c.options)),
          ("packs", canonJson (Json.jobj c.packs)),
          ("schedule", canonJson (scheduleToJson c.schedule))] := by
  simp only [OsqueryConf.toJson, canonJson, canonFields]
  rw [sortFields_conf]

/-- Lookups in the canonical five-key configuration object. -/
theorem conf_get (j1 j2 j3 j4 j5 : Json) :
    getField "options" [("auto_table_construction", j1), ("decorators", j2),
        ("options", j3), ("packs", j4), ("schedule", j5)] = some j3
      ∧ getField "schedule" [("auto_table_construction", j1), ("decorators", j2),
        ("options", j3), ("packs", j4), ("schedule", j5)] = some j5
      ∧ getField "packs" [("auto_table_construction", j1), ("decorators", j2),
        ("options", j3), ("packs", j4), ("schedule", j5)] = some j4
      ∧ getField "decorators" [("auto_table_construction", j1), ("decorators", j2),
        ("options", j3), ("packs", j4), ("schedule", j5)] = some j2
      ∧ getField "auto_table_construction" [("auto_table_construction", j1),
        ("decorators", j2), ("options", j3), ("packs", j4), ("schedule", j5)]
        = some j1 :=
  ⟨rfl, rfl, rfl, rfl, rfl⟩

/-- Unmarshalling the canonical form of a marshalled configuration recovers
it, for faithfully represented values. -/
theorem osqueryConfOfJson_canonConf (c : OsqueryConf) (h : WfConf c) :
    osqueryConfOfJson (canonJson (OsqueryConf.toJson c)) = .ok c := by
  obtain ⟨h1, h2, h3, h4, h5, h6, h7, h8⟩ := h
  rw [canonJson_confToJson]
  obtain ⟨g1, g2, g3, g4, g5⟩ := conf_get (canonJson (Json.jobj c.atc))
    (canonJson (DecoratorConf.toJson c.decorators)) (canonJson (Json.jobj c.options))
    (canonJson (Json.jobj c.packs)) (canonJson (scheduleToJson c.schedule))
  simp only [osqueryConfOfJson, g1, g2, g3, g4, g5]
  rw [canonJson_jobj_id h1 h2, canonJson_jobj_id h4 h5, canonJson_jobj_id h7 h8,
    scheduleToJson_decode c.schedule h3, decoratorOfJson_canon c.decorators h6]
  simp [mapOfJson, bind, Except.bind]

/-- Round trip of the whole configuration through serialize and
GenStructConf. -/
theorem GenStructConf_roundtrip (c : OsqueryConf) (b : Bool) (h : WfConf c) :
    ∃ s, GenSerializedConf (OsqueryConf.toJson c) b = .ok s
      ∧ GenStructConf s = .ok c := by
  obtain ⟨s, h1, h2⟩ := GenSerializedConf_ok (OsqueryConf.toJson c) b
  refine ⟨s, h1, ?_⟩
  simp only [GenStructConf, parseStage, h2, bind, Except.bind]
  exact osqueryConfOfJson_canonConf c h

end Osctrl

namespace Osctrl

/-! ## Decoded values are well-formed -/

mutual
/-- Canonicalization is idempotent. -/
theorem canonJson_idem : ∀ x : Json, canonJson (canonJson x) = canonJson x
  | .null => rfl
  | .jbool _ => rfl
  | .jnum _ => rfl
  | .jstr _ => rfl
  | .jarr xs => by
    simp only [canonJson]
    rw [canonList_idem xs]
  | .jobj kvs => by
    simp only [canonJson]
    have hmem : ∀ a ∈ sortFields (canonFields kvs), canonJson a.2 = a.2 := by
      intro a ha
      exact canonFields_mem_canon kvs a (sortFields_mem ha)
    rw [canonFields_id hmem, sortFields_of_sorted (sortFields_sorted _)]
termination_by x => sizeOf x
/-- Canonicalizing a list is idempotent. -/
theorem canonList_idem : ∀ xs : List Json, canonList (canonList xs) = canonList xs
  | [] => rfl
  | x :: rest => by
    simp only [canonList]
    rw [canonJson_idem x, canonList_idem rest]
termination_by xs => sizeOf xs
/-- Values of canonicalized fields are canonical. -/
theorem canonFields_mem_canon : ∀ (kvs : List (String × Json)) (a : String × Json),
    a ∈ canonFields kvs → canonJson a.2 = a.2
  | [], a, ha => by simp [canonFields] at ha
  | (k, v) :: rest, a, ha => by
    simp only [canonFields] at ha
    rcases List.mem_cons.mp ha with h | h
    · rw [h]
      exact canonJson_idem v
    · exact canonFields_mem_canon rest a h
termination_by kvs _ _ => sizeOf kvs
end

/-- Every fully parsed document is canonical. -/
theorem parseJsonText_canon {s : String} {j : Json} (h : parseJsonText s = some j) :
    canonJson j = j := by
  unfold parseJsonText at h
  cases hp : parseValue (s.data.length + 1) (skipWs s.data) with
  | none => rw [hp] at h; exact absurd h (by simp)
  | some p =>
    obtain ⟨v, r⟩ := p
    rw [hp] at h
    dsimp only at h
    split at h
    · have hvj := Option.some.inj h
      subst hvj
      exact parseValue_canon _ _ _ _ hp
    · exact absurd h (by simp)

/-- Destructure a successful options decode. -/
theorem GenStructOptions_dest {s : String} {m : OptionsConf}
    (h : GenStructOptions s = .ok m) :
    ∃ j, parseJsonText s = some j ∧ mapOfJson j = .ok m := by
  cases hp : parseJsonText s with
  | none =>
    simp only [GenStructOptions, parseStage, hp, bind, Except.bind] at h
    exact Except.noConfusion h
  | some j =>
    simp only [GenStructOptions, parseStage, hp, bind, Except.bind] at h
    exact ⟨j, rfl, h⟩

/-- Destructure a successful schedule decode. -/
theorem GenStructSchedule_dest {s : String} {m : ScheduleConf}
    (h : GenStructSchedule s = .ok m) :
    ∃ j, parseJsonText s = some j ∧ scheduleOfJson j = .ok m := by
  cases hp : parseJsonText s with
  | none =>
    simp only [GenStructSchedule, parseStage, hp, bind, Except.bind] at h
    exact Except.noConfusion h
  | some j =>
    simp only [GenStructSchedule, parseStage, hp, bind, Except.bind] at h
    exact ⟨j, rfl, h⟩

/-- A decoded options map is sorted with canonical values. -/
theorem GenStructOptions_wf {s : String} {m : OptionsConf}
    (h : GenStructOptions s = .ok m) :
    keysSorted m ∧ ∀ a ∈ m, canonJson a.2 = a.2 := by
  obtain ⟨j, hp, hm⟩ := GenStructOptions_dest h
  have hc : canonJson j = j := parseJsonText_canon hp
  cases j with
  | null =>
    simp only [mapOfJson, Except.ok.injEq] at hm
    subst hm
    exact ⟨List.Pairwise.nil, by simp⟩
  | jobj kvs =>
    simp only [mapOfJson, Except.ok.injEq] at hm
    subst hm
    simp only [canonJson, Json.jobj.injEq] at hc
    constructor
    · rw [← hc]
      exact sortFields_sorted _
    · intro a ha
      rw [← hc] at ha
      exact canonFields_mem_canon _ a (sortFields_mem ha)
  | jbool b => simp [mapOfJson] at hm
  | jnum n => simp [mapOfJson] at hm
  | jstr t => simp [mapOfJson] at hm
  | jarr xs => simp [mapOfJson] at hm

/-- Unmarshalling schedule entries keeps the keys in order. -/
theorem scheduleOfFields_keys : ∀ {kvs : List (String × Json)} {m : ScheduleConf},
    scheduleOfFields kvs = .ok m → m.map Prod.fst = kvs.map Prod.fst := by
  intro kvs
  induction kvs with
  | nil =>
    intro m h
    simp only [scheduleOfFields, Except.ok.injEq] at h
    subst h
    rfl
  | cons b rest ih =>
    obtain ⟨k, v⟩ := b
    intro m h
    simp only [scheduleOfFields, bind, Except.bind] at h
    cases hq : scheduleQueryOfJson v with
    | error e => rw [hq] at h; simp at h
    | ok q =>
      rw [hq] at h
      cases hr : scheduleOfFields rest with
      | error e => rw [hr] at h; simp at h
      | ok m2 =>
        rw [hr] at h
        simp only [Except.ok.injEq] at h
        subst h
        simp [ih hr]

/-- Key order transports along equal key sequences. -/
theorem keysSorted_of_map_fst {α β : Type} {l : List (String × α)}
    {l2 : List (String × β)} (h : l.map Prod.fst = l2.map Prod.fst)
    (hs : keysSorted l2) : keysSorted l := by
  have h2 : (l2.map Prod.fst).Pairwise (fun a b => keyLt a b = true) :=
    List.pairwise_map.mpr hs
  rw [← h] at h2
  exact List.pairwise_map.mp h2

/-- A decoded schedule map is sorted. -/
theorem GenStructSchedule_wf {s : String} {m : ScheduleConf}
    (h : GenStructSchedule s = .ok m) : keysSorted m := by
  obtain ⟨j, hp, hm⟩ := GenStructSchedule_dest h
  have hc : canonJson j = j := parseJsonText_canon hp
  cases j with
  | null =>
    simp only [scheduleOfJson, Except.ok.injEq] at hm
    subst hm
    exact List.Pairwise.nil
  | jobj kvs =>
    simp only [scheduleOfJson] at hm
    simp only [canonJson, Json.jobj.injEq] at hc
    have hkeys := scheduleOfFields_keys hm
    have hsor : keysSorted kvs := by
      rw [← hc]
      exact sortFields_sorted _
    exact keysSorted_of_map_fst hkeys hsor
  | jbool b => simp [scheduleOfJson] at hm
  | jnum n => simp [scheduleOfJson] at hm
  | jstr t => simp [scheduleOfJson] at hm
  | jarr xs => simp [scheduleOfJson] at hm

end Osctrl

namespace Osctrl

/-! ## The writer operations -/

/-- Re-assigning a key fully replaces the prior binding: no duplicate is
left and no part of the old value survives. -/
theorem insertField_insertField {α : Type} (k : String) (v1 v2 : α) :
    ∀ l : List (String × α), insertField k v2 (insertField k v1 l) = insertField k v2 l := by
  intro l
  induction l with
  | nil => simp [insertField, keyLt_irrefl]
  | cons b t ih =>
    obtain ⟨k1, w⟩ := b
    by_cases hlt : keyLt k k1 = true
    · simp [insertField, hlt, keyLt_irrefl]
    · by_cases heq : k = k1
      · subst heq
        simp [insertField, keyLt_irrefl]
      · simp [insertField, hlt, heq, ih]

/-- RefreshConfiguration rewrites only the configuration column: the five
raw fragment columns are left as they were. -/
theorem refresh_preserves (env : TLSEnvironment) :
    (RefreshConfiguration env).1.options = env.options
      ∧ (RefreshConfiguration env).1.schedule = env.schedule := by
  unfold RefreshConfiguration
  repeat' split
  all_goals exact ⟨rfl, rfl⟩

/-- What AddOptionsConf persists in the options column when the decoded map
is not nil: the decoded map with the one key assigned, and nothing else; the
operation returns instead of panicking. -/
theorem AddOptionsConf_spec (env : TLSEnvironment) (k : String) (v : Json)
    {o : OptionsConf} (ho : GenStructOptions env.options = .ok o)
    (hnn : parsedNull env.options = false)
    (hv : canonJson v = v) :
    ∃ r, AddOptionsConf env k v = some r
      ∧ GenStructOptions r.1.options = .ok (insertField k v o) := by
  obtain ⟨hso, hvo⟩ := GenStructOptions_wf ho
  have hs2 : keysSorted (insertField k v o) := insertField_sorted k v hso
  have hv2 : ∀ a ∈ insertField k v o, canonJson a.2 = a.2 := by
    intro a ha
    rcases insertField_mem ha with h | h
    · rw [h]
      exact hv
    · exact hvo a h
  obtain ⟨st, hser, hdec⟩ := GenStructOptions_roundtrip (insertField k v o) true hs2 hv2
  have hp := (refresh_preserves { env with options := st }).1
  simp only [AddOptionsConf, ho, hnn, Bool.false_eq_true, if_false, hser, UpdateOptions]
  cases hr : RefreshConfiguration { env with options := st } with
  | mk env3 eo =>
    rw [hr] at hp
    have hopt : env3.options = st := by simpa using hp
    cases eo with
    | none =>
      refine ⟨(env3, none), rfl, ?_⟩
      show GenStructOptions env3.options = _
      rw [hopt]
      exact hdec
    | some e =>
      refine ⟨(env3, some ("error refreshing configuration " ++ e)), rfl, ?_⟩
      show GenStructOptions env3.options = _
      rw [hopt]
      exact hdec

/-- What AddScheduleConfQuery persists in the schedule column when the
decoded schedule map is not nil: the decoded schedule with the one entry
assigned, and nothing else; the operation returns instead of panicking. -/
theorem AddScheduleConfQuery_spec (env : TLSEnvironment) (qn : String) (q : ScheduleQuery)
    {m : ScheduleConf} (hm : GenStructSchedule env.schedule = .ok m)
    (hmn : parsedNull env.schedule = false) :
    ∃ r, AddScheduleConfQuery env qn q = some r
      ∧ GenStructSchedule r.1.schedule = .ok (insertField qn q m) := by
  have hs2 : keysSorted (insertField qn q m) :=
    insertField_sorted qn q (GenStructSchedule_wf hm)
  obtain ⟨st, hser, hdec⟩ := GenStructSchedule_roundtrip (insertField qn q m) true hs2
  have hp := (refresh_preserves { env with schedule := st }).2
  simp only [AddScheduleConfQuery, hm, hmn, Bool.false_eq_true, if_false, hser,
    UpdateSchedule]
  cases hr : RefreshConfiguration { env with schedule := st } with
  | mk env3 eo =>
    rw [hr] at hp
    have hopt : env3.schedule = st := by simpa using hp
    cases eo with
    | none =>
      refine ⟨(env3, none), rfl, ?_⟩
      show GenStructSchedule env3.schedule = _
      rw [hopt]
      exact hdec
    | some e =>
      refine ⟨(env3, some ("error refreshing configuration " ++ e)), rfl, ?_⟩
      show GenStructSchedule env3.schedule = _
      rw [hopt]
      exact hdec

end Osctrl

namespace Osctrl

/-! ## Compact output is the pretty output with the indentation removed -/

/-- Remove indentation: after each newline, drop the run of spaces that the
renderer put there.  The flag records being right after a newline. -/
def stripIndGo : Bool → List Char → List Char
  | _, [] => []
  | true, c :: r =>
    if c = ' ' then stripIndGo true r
    else if c = '\n' then '\n' :: stripIndGo true r
    else c :: stripIndGo false r
  | false, c :: r =>
    if c = '\n' then '\n' :: stripIndGo true r else c :: stripIndGo false r

/-- Remove the per-level indentation from a rendered document. -/
def stripInd (l : List Char) : List Char := stripIndGo false l

/-- The empty indent unit repeats to nothing. -/
theorem indentReps_nil : ∀ d : Nat, indentReps [] d = []
  | 0 => rfl
  | d + 1 => by simp [indentReps, indentReps_nil d]

/-- A non-newline character passes through outside indentation. -/
theorem stripIndGo_false_cons {c : Char} (h : c ≠ '\n') (r : List Char) :
    stripIndGo false (c :: r) = c :: stripIndGo false r := by
  simp [stripIndGo, h]

/-- A newline passes through and opens an indentation run. -/
theorem stripIndGo_nl_false (r : List Char) :
    stripIndGo false ('\n' :: r) = '\n' :: stripIndGo true r := by
  simp [stripIndGo]

/-- A newline inside an indentation run passes through and opens another. -/
theorem stripIndGo_nl_true (r : List Char) :
    stripIndGo true ('\n' :: r) = '\n' :: stripIndGo true r := by
  simp [stripIndGo]

/-- A character that is neither space nor newline ends the indentation run. -/
theorem stripIndGo_true_cons {c : Char} (h1 : c ≠ ' ') (h2 : c ≠ '\n') (r : List Char) :
    stripIndGo true (c :: r) = c :: stripIndGo false r := by
  simp [stripIndGo, h1, h2]

/-- On input not starting with space or newline, the two states agree. -/
theorem stripIndGo_true_eq_false {c : Char} (h1 : c ≠ ' ') (h2 : c ≠ '\n') (r : List Char) :
    stripIndGo true (c :: r) = stripIndGo false (c :: r) := by
  rw [stripIndGo_true_cons h1 h2, stripIndGo_false_cons h2]

/-- The indentation run after a newline is dropped entirely. -/
theorem stripIndGo_true_indent : ∀ (d : Nat) (b : List Char),
    stripIndGo true (indentReps [' ', ' '] d ++ b) = stripIndGo true b
  | 0, b => rfl
  | d + 1, b => by
    simp only [indentReps, List.cons_append, List.append_assoc]
    simp only [stripIndGo, if_pos rfl]
    exact stripIndGo_true_indent d b

/-- Newline-free text passes through unchanged outside indentation. -/
theorem stripIndGo_no_nl : ∀ {a : List Char}, (∀ c ∈ a, c ≠ '\n') → ∀ b : List Char,
    stripIndGo false (a ++ b) = a ++ stripIndGo false b := by
  intro a
  induction a with
  | nil => intro _ b; rfl
  | cons c t ih =>
    intro h b
    rw [List.cons_append, stripIndGo_false_cons (h c (by simp)),
      ih (fun x hx => h x (List.mem_cons_of_mem _ hx)) b, List.cons_append]

/-- A whitespace-free head character is neither space nor newline. -/
theorem ne_of_not_ws {c : Char} (h : isWsChar c = false) : c ≠ ' ' ∧ c ≠ '\n' := by
  constructor <;> intro he <;> subst he <;> exact absurd h (by decide)

/-- Hexadecimal digits are never a newline. -/
theorem hexDigit_ne_nl {m : Nat} (h : m < 16) : hexDigit m ≠ '\n' := by
  intro he
  have h10 : (hexDigit m).toNat = 10 := by rw [he]; rfl
  unfold hexDigit at h10
  split at h10 <;> rw [toNat_ofNat_small (by omega)] at h10 <;> omega

/-- Digit characters are never a newline. -/
theorem digit_ne_nl {c : Char} (h : isDigitChar c = true) : c ≠ '\n' := by
  intro he
  subst he
  exact absurd h (by decide)

/-- Printed integers contain no newline. -/
theorem intChars_no_nl (i : Int) : ∀ c ∈ intChars i, c ≠ '\n' := by
  intro c hc
  unfold intChars at hc
  rw [List.mem_append] at hc
  rcases hc with hc | hc
  · split at hc
    · simp at hc
      subst hc
      decide
    · simp at hc
  · exact digit_ne_nl ((natChars_spec i.natAbs).2 c hc)

/-- Escaped characters contain no newline: the newline itself is escaped. -/
theorem escChar_no_nl (c : Char) : ∀ x ∈ escChar c, x ≠ '\n' := by
  intro x hx
  unfold escChar at hx
  repeat' split at hx
  all_goals first
    | (fin_cases hx <;> decide)
    | (unfold escHex4 at hx
       fin_cases hx <;>
         first
           | decide
           | exact hexDigit_ne_nl (Nat.mod_lt _ (by omega)))
    | (simp only [List.mem_singleton] at hx
       subst hx
       assumption)

/-- Escaped text contains no newline. -/
theorem escList_no_nl : ∀ l : List Char, ∀ x ∈ escList l, x ≠ '\n' := by
  intro l
  induction l with
  | nil => intro x hx; simp [escList] at hx
  | cons c t ih =>
    intro x hx
    rw [escList, List.mem_append] at hx
    rcases hx with hx | hx
    · exact escChar_no_nl c x hx
    · exact ih x hx

/-- A rendered string literal contains no newline. -/
theorem strLit_no_nl (s : String) : ∀ c ∈ '"' :: (escList s.data ++ ['"']), c ≠ '\n' := by
  intro c hc
  rcases List.mem_cons.mp hc with hc | hc
  · subst hc; decide
  · rw [List.mem_append] at hc
    rcases hc with hc | hc
    · exact escList_no_nl s.data c hc
    · simp at hc; subst hc; decide

end Osctrl

namespace Osctrl

/-- At the start of a value the indentation run, if any, is already over. -/
theorem stripIndGo_true_renderVal (d : Nat) (x : Json) (r : List Char) :
    stripIndGo true (renderVal [' ', ' '] d x ++ r)
      = stripIndGo false (renderVal [' ', ' '] d x ++ r) := by
  obtain ⟨c, t, hct, hws, _, _⟩ := renderVal_head [' ', ' '] d x
  obtain ⟨h1, h2⟩ := ne_of_not_ws hws
  rw [hct, List.cons_append, stripIndGo_true_eq_false h1 h2]

mutual
/-- Stripping the indentation of a two-space-pretty rendering yields exactly
the compact rendering, against any tail. -/
theorem stripVal : ∀ (x : Json) (d : Nat) (b : List Char),
    stripIndGo false (renderVal [' ', ' '] d x ++ b)
      = renderVal [] d x ++ stripIndGo false b
  | .null, d, b => by
    simp only [renderVal]
    exact stripIndGo_no_nl (by decide) b
  | .jbool true, d, b => by
    simp only [renderVal]
    exact stripIndGo_no_nl (by decide) b
  | .jbool false, d, b => by
    simp only [renderVal]
    exact stripIndGo_no_nl (by decide) b
  | .jnum n, d, b => by
    simp only [renderVal]
    exact stripIndGo_no_nl (intChars_no_nl n) b
  | .jstr s, d, b => by
    simp only [renderVal]
    exact stripIndGo_no_nl (strLit_no_nl s) b
  | .jarr [], d, b => by
    simp only [renderVal]
    exact stripIndGo_no_nl (by decide) b
  | .jobj [], d, b => by
    simp only [renderVal]
    exact stripIndGo_no_nl (by decide) b
  | .jarr (x :: xs), d, b => by
    simp only [renderVal, nlInd, indentReps_nil, List.cons_append, List.append_assoc,
      List.nil_append]
    rw [stripIndGo_false_cons (show ('[' : Char) ≠ '\n' by decide), stripIndGo_nl_false,
      stripIndGo_true_indent, stripIndGo_true_renderVal, stripVal x (d + 1),
      stripItems xs (d + 1), stripIndGo_nl_false, stripIndGo_true_indent,
      stripIndGo_true_cons (show (']' : Char) ≠ ' ' by decide)
        (show (']' : Char) ≠ '\n' by decide)]
  | .jobj ((k, v) :: kvs), d, b => by
    simp only [renderVal, nlInd, indentReps_nil, List.cons_append, List.append_assoc,
      List.nil_append]
    rw [stripIndGo_false_cons (show ('\x7b' : Char) ≠ '\n' by decide), stripIndGo_nl_false,
      stripIndGo_true_indent,
      stripIndGo_true_cons (show ('"' : Char) ≠ ' ' by decide)
        (show ('"' : Char) ≠ '\n' by decide),
      stripIndGo_no_nl (escList_no_nl k.data),
      stripIndGo_false_cons (show ('"' : Char) ≠ '\n' by decide),
      stripIndGo_false_cons (show (':' : Char) ≠ '\n' by decide),
      stripIndGo_false_cons (show (' ' : Char) ≠ '\n' by decide),
      stripVal v (d + 1), stripFields kvs (d + 1), stripIndGo_nl_false,
      stripIndGo_true_indent,
      stripIndGo_true_cons (show ('\x7d' : Char) ≠ ' ' by decide)
        (show ('\x7d' : Char) ≠ '\n' by decide)]
termination_by x => sizeOf x
/-- Stripping the remaining array elements. -/
theorem stripItems : ∀ (xs : List Json) (d : Nat) (b : List Char),
    stripIndGo false (renderItems [' ', ' '] d xs ++ b)
      = renderItems [] d xs ++ stripIndGo false b
  | [], d, b => by
    simp only [renderItems, List.nil_append]
  | x :: xs, d, b => by
    simp only [renderItems, nlInd, indentReps_nil, List.cons_append, List.append_assoc,
      List.nil_append]
    rw [stripIndGo_false_cons (show (',' : Char) ≠ '\n' by decide), stripIndGo_nl_false,
      stripIndGo_true_indent, stripIndGo_true_renderVal, stripVal x d, stripItems xs d]
termination_by xs => sizeOf xs
/-- Stripping the remaining object fields. -/
theorem stripFields : ∀ (kvs : List (String × Json)) (d : Nat) (b : List Char),
    stripIndGo false (renderFields [' ', ' '] d kvs ++ b)
      = renderFields [] d kvs ++ stripIndGo false b
  | [], d, b => by
    simp only [renderFields, List.nil_append]
  | (k, v) :: kvs, d, b => by
    simp only [renderFields, nlInd, indentReps_nil, List.cons_append, List.append_assoc,
      List.nil_append]
    rw [stripIndGo_false_cons (show (',' : Char) ≠ '\n' by decide), stripIndGo_nl_false,
      stripIndGo_true_indent,
      stripIndGo_true_cons (show ('"' : Char) ≠ ' ' by decide)
        (show ('"' : Char) ≠ '\n' by decide),
      stripIndGo_no_nl (escList_no_nl k.data),
      stripIndGo_false_cons (show ('"' : Char) ≠ '\n' by decide),
      stripIndGo_false_cons (show (':' : Char) ≠ '\n' by decide),
      stripIndGo_false_cons (show (' ' : Char) ≠ '\n' by decide),
      stripVal v d, stripFields kvs d]
termination_by kvs => sizeOf kvs
end

/-- The compact rendering is the pretty rendering with indentation stripped. -/
theorem stripInd_render (x : Json) :
    stripInd (renderVal [' ', ' '] 0 x) = renderVal [] 0 x := by
  have h := stripVal x 0 []
  simpa [stripInd, stripIndGo] using h

end Osctrl

namespace Osctrl

/-! ## The claims -/

set_option maxRecDepth 100000

/-- C1 (amended): decoding the canonical empty texts succeeds — the empty
object gives the empty mapping of every kind and, like null, the all-empty
Decorators instance — but an empty raw text is NOT a successful decode:
json.Unmarshal of empty input reports unexpected end of JSON input, and
composing five empty raw fragments fails on the first of them rather than
yielding five empty fragments. -/
theorem C1_empty_decode :
    GenStructOptions "\x7b\x7d" = .ok []
      ∧ GenStructSchedule "\x7b\x7d" = .ok []
      ∧ GenStructPacks "\x7b\x7d" = .ok []
      ∧ GenStructDecorators "\x7b\x7d" = .ok ⟨[], [], Json.null⟩
      ∧ GenStructATC "\x7b\x7d" = .ok []
      ∧ GenStructDecorators "null" = .ok ⟨[], [], Json.null⟩
      ∧ GenStructOptions "" = .error "unexpected end of JSON input"
      ∧ (RefreshConfiguration ⟨"", "", "", "", "", "c"⟩).2
          = some ("error structuring options " ++ "unexpected end of JSON input") :=
  ⟨rfl, rfl, rfl, rfl, rfl, rfl, rfl, rfl⟩

/-- C1 counterexample: on the empty raw text, the original claim fails —
decode is an error, not the empty instance, and the all-empty-fragments
refresh reports an error instead of succeeding. -/
theorem C1_counterexample :
    (∃ e, GenStructOptions "" = .error e)
      ∧ ∃ m, (RefreshConfiguration ⟨"", "", "", "", "", "c0"⟩).2 = some m :=
  ⟨⟨_, rfl⟩, _, rfl⟩

/-- C2: refresh is all-or-nothing — when any of the five fragment decodes
fails, RefreshConfiguration returns the environment exactly as it was (the
composed-configuration column is not written), no composed configuration is
produced, and the returned error names the first failing fragment and
carries that fragment's decode error. -/
theorem C2_refresh_all_or_nothing (env : TLSEnvironment)
    (h : ¬ ∃ o s p dc a, GenStructOptions env.options = .ok o
      ∧ GenStructSchedule env.schedule = .ok s
      ∧ GenStructPacks env.packs = .ok p
      ∧ GenStructDecorators env.decorators = .ok dc
      ∧ GenStructATC env.atc = .ok a) :
    (RefreshConfiguration env).1 = env
      ∧ ∃ e, ((RefreshConfiguration env).2 = some ("error structuring options " ++ e)
            ∧ GenStructOptions env.options = .error e)
        ∨ ((RefreshConfiguration env).2 = some ("error structuring schedule " ++ e)
            ∧ GenStructSchedule env.schedule = .error e)
        ∨ ((RefreshConfiguration env).2 = some ("error structuring packs " ++ e)
            ∧ GenStructPacks env.packs = .error e)
        ∨ ((RefreshConfiguration env).2 = some ("error structuring decorators " ++ e)
            ∧ GenStructDecorators env.decorators = .error e)
        ∨ ((RefreshConfiguration env).2 = some ("error structuring ATC " ++ e)
            ∧ GenStructATC env.atc = .error e) := by
  cases ho : GenStructOptions env.options with
  | error e =>
    refine ⟨?_, e, Or.inl ⟨?_, ?_⟩⟩ <;> simp [RefreshConfiguration, ho]
  | ok o =>
  cases hs : GenStructSchedule env.schedule with
  | error e =>
    refine ⟨?_, e, Or.inr (Or.inl ⟨?_, ?_⟩)⟩ <;> simp [RefreshConfiguration, ho, hs]
  | ok s =>
  cases hp : GenStructPacks env.packs with
  | error e =>
    refine ⟨?_, e, Or.inr (Or.inr (Or.inl ⟨?_, ?_⟩))⟩ <;>
      simp [RefreshConfiguration, ho, hs, hp]
  | ok p =>
  cases hdc : GenStructDecorators env.decorators with
  | error e =>
    refine ⟨?_, e, Or.inr (Or.inr (Or.inr (Or.inl ⟨?_, ?_⟩)))⟩ <;>
      simp [RefreshConfiguration, ho, hs, hp, hdc]
  | ok dc =>
  cases ha : GenStructATC env.atc with
  | error e =>
    refine ⟨?_, e, Or.inr (Or.inr (Or.inr (Or.inr ⟨?_, ?_⟩)))⟩ <;>
      simp [RefreshConfiguration, ho, hs, hp, hdc, ha]
  | ok a => exact absurd ⟨o, s, p, dc, a, ho, hs, hp, hdc, ha⟩ h

/-- C2 at a concrete environment whose schedule fragment is the empty (hence
undecodable) text: refresh changes nothing and reports the schedule. -/
theorem C2_witness :
    (RefreshConfiguration ⟨"\x7b\x7d", "", "\x7b\x7d", "\x7b\x7d", "\x7b\x7d", "cfg"⟩).1
        = ⟨"\x7b\x7d", "", "\x7b\x7d", "\x7b\x7d", "\x7b\x7d", "cfg"⟩
      ∧ ∃ e, ((RefreshConfiguration
              ⟨"\x7b\x7d", "", "\x7b\x7d", "\x7b\x7d", "\x7b\x7d", "cfg"⟩).2
            = some ("error structuring options " ++ e)
            ∧ GenStructOptions "\x7b\x7d" = .error e)
        ∨ ((RefreshConfiguration
              ⟨"\x7b\x7d", "", "\x7b\x7d", "\x7b\x7d", "\x7b\x7d", "cfg"⟩).2
            = some ("error structuring schedule " ++ e)
            ∧ GenStructSchedule "" = .error e)
        ∨ ((RefreshConfiguration
              ⟨"\x7b\x7d", "", "\x7b\x7d", "\x7b\x7d", "\x7b\x7d", "cfg"⟩).2
            = some ("error structuring packs " ++ e)
            ∧ GenStructPacks "\x7b\x7d" = .error e)
        ∨ ((RefreshConfiguration
              ⟨"\x7b\x7d", "", "\x7b\x7d", "\x7b\x7d", "\x7b\x7d", "cfg"⟩).2
            = some ("error structuring decorators " ++ e)
            ∧ GenStructDecorators "\x7b\x7d" = .error e)
        ∨ ((RefreshConfiguration
              ⟨"\x7b\x7d", "", "\x7b\x7d", "\x7b\x7d", "\x7b\x7d", "cfg"⟩).2
            = some ("error structuring ATC " ++ e)
            ∧ GenStructATC "\x7b\x7d" = .error e) :=
  C2_refresh_all_or_nothing ⟨"\x7b\x7d", "", "\x7b\x7d", "\x7b\x7d", "\x7b\x7d", "cfg"⟩
    (by
      rintro ⟨o, s, p, dc, a, ho, hs, hp, hdc, ha⟩
      have he : GenStructSchedule "" = .error "unexpected end of JSON input" := rfl
      rw [he] at hs
      exact Except.noConfusion hs)

/-- C3: the serialize-then-decode round trip holds for every faithfully
represented fragment value of every kind and for both indent modes: the
decoded value is structurally equal to the one serialized. -/
theorem C3_round_trip (b : Bool) (mo : OptionsConf) (ms : ScheduleConf) (mp : PacksConf)
    (dc : DecoratorConf) (ma : ATCConf)
    (hso : keysSorted mo) (hvo : ∀ a ∈ mo, canonJson a.2 = a.2)
    (hss : keysSorted ms)
    (hsp : keysSorted mp) (hvp : ∀ a ∈ mp, canonJson a.2 = a.2)
    (hiv : canonJson dc.interval = dc.interval)
    (hsa : keysSorted ma) (hva : ∀ a ∈ ma, canonJson a.2 = a.2) :
    (∃ s, GenSerializedConf (Json.jobj mo) b = .ok s ∧ GenStructOptions s = .ok mo)
      ∧ (∃ s, GenSerializedConf (scheduleToJson ms) b = .ok s
          ∧ GenStructSchedule s = .ok ms)
      ∧ (∃ s, GenSerializedConf (Json.jobj mp) b = .ok s ∧ GenStructPacks s = .ok mp)
      ∧ (∃ s, GenSerializedConf (DecoratorConf.toJson dc) b = .ok s
          ∧ GenStructDecorators s = .ok dc)
      ∧ (∃ s, GenSerializedConf (Json.jobj ma) b = .ok s ∧ GenStructATC s = .ok ma) :=
  ⟨GenStructOptions_roundtrip mo b hso hvo, GenStructSchedule_roundtrip ms b hss,
    GenStructPacks_roundtrip mp b hsp hvp, GenStructDecorators_roundtrip dc b hiv,
    GenStructATC_roundtrip ma b hsa hva⟩

/-- C3 at concrete fragments: a one-query schedule, decorators with one load
and one always query, and empty maps, pretty mode. -/
theorem C3_witness :
    (∃ s, GenSerializedConf (Json.jobj []) true = .ok s ∧ GenStructOptions s = .ok [])
      ∧ (∃ s, GenSerializedConf
            (scheduleToJson [("q", ⟨"SELECT 1;", 10, false, false, "", "", 0, false⟩)]) true
            = .ok s
          ∧ GenStructSchedule s
            = .ok [("q", ⟨"SELECT 1;", 10, false, false, "", "", 0, false⟩)])
      ∧ (∃ s, GenSerializedConf (Json.jobj []) true = .ok s ∧ GenStructPacks s = .ok [])
      ∧ (∃ s, GenSerializedConf (DecoratorConf.toJson ⟨["u"], ["a"], Json.null⟩) true
            = .ok s
          ∧ GenStructDecorators s = .ok ⟨["u"], ["a"], Json.null⟩)
      ∧ (∃ s, GenSerializedConf (Json.jobj []) true = .ok s ∧ GenStructATC s = .ok []) :=
  C3_round_trip true [] [("q", ⟨"SELECT 1;", 10, false, false, "", "", 0, false⟩)] []
    ⟨["u"], ["a"], Json.null⟩ [] List.Pairwise.nil (by simp)
    (by unfold keysSorted; decide) List.Pairwise.nil (by simp) rfl List.Pairwise.nil
    (by simp)

/-- C4 (amended): on encoding a Schedule Entry EVERY field carries omitempty,
query and interval included: each of the eight is omitted exactly when it
holds its zero value, zero values are never emitted as null or as explicit
zeros, and the zero entry encodes as a field-less object. -/
theorem C4_omitempty_fields (q : ScheduleQuery) :
    ScheduleQuery.toJson q = Json.jobj (sqFields q)
      ∧ getField "query" (sqFields q)
          = (if q.query = "" then none else some (Json.jstr q.query))
      ∧ getField "interval" (sqFields q)
          = (if q.interval = 0 then none else some (Json.jnum q.interval))
      ∧ getField "removed" (sqFields q)
          = (if q.removed then some (Json.jbool true) else none)
      ∧ getField "snapshot" (sqFields q)
          = (if q.snapshot then some (Json.jbool true) else none)
      ∧ getField "platform" (sqFields q)
          = (if q.platform = "" then none else some (Json.jstr q.platform))
      ∧ getField "version" (sqFields q)
          = (if q.version = "" then none else some (Json.jstr q.version))
      ∧ getField "shard" (sqFields q)
          = (if q.shard = 0 then none else some (Json.jnum q.shard))
      ∧ getField "denylist" (sqFields q)
          = (if q.denylist then some (Json.jbool true) else none)
      ∧ sqFields ⟨"", 0, false, false, "", "", 0, false⟩ = [] :=
  ⟨rfl, sq_get_query q, sq_get_interval q, sq_get_removed q, sq_get_snapshot q,
    sq_get_platform q, sq_get_version q, sq_get_shard q, sq_get_denylist q, rfl⟩

/-- C4 counterexample to the original claim: the zero entry's encoding emits
neither query nor interval — serialized without indent it is the bare empty
object. -/
theorem C4_counterexample :
    getField "query" (sqFields ⟨"", 0, false, false, "", "", 0, false⟩) = none
      ∧ getField "interval" (sqFields ⟨"", 0, false, false, "", "", 0, false⟩) = none
      ∧ GenSerializedConf (ScheduleQuery.toJson ⟨"", 0, false, false, "", "", 0, false⟩)
          false = .ok "\x7b\x7d" :=
  ⟨rfl, rfl, rfl⟩

/-- C5 (amended): pretty encoding indents nested structure with the fixed
two-space unit; compact encoding drops only that per-level indentation —
json.MarshalIndent with the empty indent string still separates the elements
with newlines, so the compact text is the pretty text with each post-newline
indentation run removed, not whitespace-free single-line output. -/
theorem C5_indent_modes (x : Json) :
    GenSerializedConf x true = .ok (String.mk (renderVal [' ', ' '] 0 x))
      ∧ ∃ s t, GenSerializedConf x true = .ok s ∧ GenSerializedConf x false = .ok t
          ∧ t.data = stripInd s.data :=
  ⟨rfl, _, _, rfl, rfl, (stripInd_render x).symm⟩

/-- C5 counterexample to the original claim: the compact encoding of a
one-key object contains newline characters — it is not free of
inter-element whitespace. -/
theorem C5_counterexample :
    GenSerializedConf (Json.jobj [("a", Json.jnum 1)]) false
        = .ok (String.mk ['\x7b', '\n', '"', 'a', '"', ':', ' ', '1', '\n', '\x7d'])
      ∧ '\n' ∈ (String.mk ['\x7b', '\n', '"', 'a', '"', ':', ' ', '1', '\n', '\x7d']).data :=
  ⟨rfl, by decide⟩

end Osctrl

namespace Osctrl

set_option maxRecDepth 100000

/-- C6: the output of GenEmptyConfiguration, for either indent mode, decodes
to the composed configuration whose decorators carry exactly the five
default always queries and nothing else, and whose options, schedule, packs
and auto_table_construction fragments are all empty. -/
theorem C6_empty_configuration (b : Bool) :
    GenStructConf (GenEmptyConfiguration b)
      = .ok ⟨[], [], [], ⟨[], defaultAlways, Json.null⟩, []⟩ := by
  cases b <;> rfl

/-- C7 (amended): AddOptionsConf and AddScheduleConfQuery have overwrite
semantics only when the decoded fragment map is not Go-nil — for an
environment whose fragment decodes from a non-null text, the operation
returns (it does not panic) and the persisted fragment decodes to the
decoded map with exactly the given key assigned: that key reads back the
given value, every other key reads as before, and repeating the call with
the same key fully replaces the earlier value, with no field-level merge and
no duplicate key.  A fragment column holding JSON null also decodes, but
there the map index write panics and nothing is installed. -/
theorem C7_overwrite (env : TLSEnvironment) (k : String) (v v0 : Json)
    (qn : String) (q q0 : ScheduleQuery)
    {o : OptionsConf} (ho : GenStructOptions env.options = .ok o)
    (hnn : parsedNull env.options = false)
    (hv : canonJson v = v)
    {m : ScheduleConf} (hm : GenStructSchedule env.schedule = .ok m)
    (hmn : parsedNull env.schedule = false) :
    (∃ r, AddOptionsConf env k v = some r
      ∧ GenStructOptions r.1.options = .ok (insertField k v o))
      ∧ getField k (insertField k v o) = some v
      ∧ (∀ k2, k2 ≠ k → getField k2 (insertField k v o) = getField k2 o)
      ∧ insertField k v (insertField k v0 o) = insertField k v o
      ∧ (∃ r, AddScheduleConfQuery env qn q = some r
        ∧ GenStructSchedule r.1.schedule = .ok (insertField qn q m))
      ∧ getField qn (insertField qn q m) = some q
      ∧ (∀ n2, n2 ≠ qn → getField n2 (insertField qn q m) = getField n2 m)
      ∧ insertField qn q (insertField qn q0 m) = insertField qn q m := by
  refine ⟨AddOptionsConf_spec env k v ho hnn hv, ?_, ?_,
    insertField_insertField k v0 v o, AddScheduleConfQuery_spec env qn q hm hmn, ?_, ?_,
    insertField_insertField qn q0 q m⟩
  · rw [getField_insertField]
    simp
  · intro k2 hne
    rw [getField_insertField]
    simp [hne]
  · rw [getField_insertField]
    simp
  · intro n2 hne
    rw [getField_insertField]
    simp [hne]

/-- C7 counterexample to the original claim: a fragment column holding the
JSON null is decodable (it decodes to the nil map), yet the add operation
panics — none — instead of installing the key, for options and schedule
alike. -/
theorem C7_counterexample :
    GenStructOptions "null" = .ok []
      ∧ AddOptionsConf ⟨"null", "\x7b\x7d", "", "", "", ""⟩ "a" (Json.jnum 1) = none
      ∧ GenStructSchedule "null" = .ok []
      ∧ AddScheduleConfQuery ⟨"\x7b\x7d", "null", "", "", "", ""⟩ "q"
          ⟨"SELECT 1;", 10, false, false, "", "", 0, false⟩ = none :=
  ⟨rfl, rfl, rfl, rfl⟩

/-- C7 at a concrete environment with empty-object (hence non-nil) decodable
fragments, an opaque option value and a concrete scheduled query. -/
theorem C7_witness :
    (∃ r, AddOptionsConf ⟨"\x7b\x7d", "\x7b\x7d", "", "", "", ""⟩ "a" (Json.jnum 1)
        = some r
      ∧ GenStructOptions r.1.options
        = .ok (insertField "a" (Json.jnum 1) ([] : OptionsConf)))
      ∧ getField "a" (insertField "a" (Json.jnum 1) ([] : OptionsConf))
          = some (Json.jnum 1)
      ∧ (∀ k2, k2 ≠ "a" →
          getField k2 (insertField "a" (Json.jnum 1) ([] : OptionsConf))
            = getField k2 ([] : OptionsConf))
      ∧ insertField "a" (Json.jnum 1) (insertField "a" (Json.jnum 2) ([] : OptionsConf))
          = insertField "a" (Json.jnum 1) ([] : OptionsConf)
      ∧ (∃ r, AddScheduleConfQuery ⟨"\x7b\x7d", "\x7b\x7d", "", "", "", ""⟩ "q"
            (⟨"SELECT 2;", 5, false, false, "", "", 0, false⟩ : ScheduleQuery) = some r
        ∧ GenStructSchedule r.1.schedule
          = .ok (insertField "q"
              (⟨"SELECT 2;", 5, false, false, "", "", 0, false⟩ : ScheduleQuery)
              ([] : ScheduleConf)))
      ∧ getField "q" (insertField "q"
            (⟨"SELECT 2;", 5, false, false, "", "", 0, false⟩ : ScheduleQuery)
            ([] : ScheduleConf))
          = some (⟨"SELECT 2;", 5, false, false, "", "", 0, false⟩ : ScheduleQuery)
      ∧ (∀ n2, n2 ≠ "q" →
          getField n2 (insertField "q"
              (⟨"SELECT 2;", 5, false, false, "", "", 0, false⟩ : ScheduleQuery)
              ([] : ScheduleConf))
            = getField n2 ([] : ScheduleConf))
      ∧ insertField "q" (⟨"SELECT 2;", 5, false, false, "", "", 0, false⟩ : ScheduleQuery)
            (insertField "q"
              (⟨"SELECT 9;", 9, true, false, "", "", 0, false⟩ : ScheduleQuery)
              ([] : ScheduleConf))
          = insertField "q" (⟨"SELECT 2;", 5, false, false, "", "", 0, false⟩ : ScheduleQuery)
              ([] : ScheduleConf) :=
  C7_overwrite ⟨"\x7b\x7d", "\x7b\x7d", "", "", "", ""⟩ "a" (Json.jnum 1) (Json.jnum 2)
    "q" ⟨"SELECT 2;", 5, false, false, "", "", 0, false⟩
    ⟨"SELECT 9;", 9, true, false, "", "", 0, false⟩ rfl rfl rfl rfl rfl

/-- C8: no error is swallowed — GenEmptyConfiguration's empty-string branch
is dead, because serializing always succeeds, so its output is never an
empty string standing in for a failure; and a refresh that reports no error
really had every internal decode succeed. -/
theorem C8_no_swallow (b : Bool) (env : TLSEnvironment)
    (h : (RefreshConfiguration env).2 = none) :
    (∃ s, GenSerializedConf
          (OsqueryConf.toJson ⟨[], [], [], ⟨[], defaultAlways, Json.null⟩, []⟩) b = .ok s
        ∧ GenEmptyConfiguration b = s ∧ s ≠ "")
      ∧ ∃ o sc p dc a, GenStructOptions env.options = .ok o
          ∧ GenStructSchedule env.schedule = .ok sc
          ∧ GenStructPacks env.packs = .ok p
          ∧ GenStructDecorators env.decorators = .ok dc
          ∧ GenStructATC env.atc = .ok a := by
  constructor
  · refine ⟨_, rfl, rfl, ?_⟩
    obtain ⟨c, t, hct, -, -, -⟩ := renderVal_head (if b then [' ', ' '] else []) 0
      (OsqueryConf.toJson ⟨[], [], [], ⟨[], defaultAlways, Json.null⟩, []⟩)
    intro he
    have hd := congrArg String.data he
    rw [hct] at hd
    exact List.noConfusion hd
  · cases ho : GenStructOptions env.options with
    | error e => simp [RefreshConfiguration, ho] at h
    | ok o =>
    cases hs : GenStructSchedule env.schedule with
    | error e => simp [RefreshConfiguration, ho, hs] at h
    | ok sc =>
    cases hp : GenStructPacks env.packs with
    | error e => simp [RefreshConfiguration, ho, hs, hp] at h
    | ok p =>
    cases hdc : GenStructDecorators env.decorators with
    | error e => simp [RefreshConfiguration, ho, hs, hp, hdc] at h
    | ok dc =>
    cases ha : GenStructATC env.atc with
    | error e => simp [RefreshConfiguration, ho, hs, hp, hdc, ha] at h
    | ok a => exact ⟨o, sc, p, dc, a, rfl, rfl, rfl, rfl, rfl⟩

/-- C8 at a concrete environment with five decodable fragments, compact
mode: the refresh succeeds, so every decode did. -/
theorem C8_witness :
    (∃ s, GenSerializedConf
          (OsqueryConf.toJson ⟨[], [], [], ⟨[], defaultAlways, Json.null⟩, []⟩) false
          = .ok s
        ∧ GenEmptyConfiguration false = s ∧ s ≠ "")
      ∧ ∃ o sc p dc a,
          GenStructOptions "\x7b\x7d" = .ok o ∧ GenStructSchedule "\x7b\x7d" = .ok sc
          ∧ GenStructPacks "\x7b\x7d" = .ok p ∧ GenStructDecorators "\x7b\x7d" = .ok dc
          ∧ GenStructATC "\x7b\x7d" = .ok a :=
  C8_no_swallow false ⟨"\x7b\x7d", "\x7b\x7d", "\x7b\x7d", "\x7b\x7d", "\x7b\x7d", ""⟩ rfl

/-- C9: every serialization of a composed configuration is a JSON object
with exactly the five top-level keys options, schedule, packs, decorators
and auto_table_construction — all five are always present (Go writes map
and struct keys, here the canonical parse shows them in byte order) and no
other top-level key ever appears, whatever the fragments hold. -/
theorem C9_five_keys (c : OsqueryConf) (b : Bool) :
    ∃ s kvs, GenSerializedConf (OsqueryConf.toJson c) b = .ok s
      ∧ parseJsonText s = some (Json.jobj kvs)
      ∧ kvs.map Prod.fst
          = ["auto_table_construction", "decorators", "options", "packs", "schedule"] := by
  obtain ⟨s, h1, h2⟩ := GenSerializedConf_ok (OsqueryConf.toJson c) b
  rw [canonJson_confToJson] at h2
  exact ⟨s, _, h1, h2, rfl⟩

/-- C10: decode is lenient about unknown keys — a concrete raw schedule text
carrying a bogus field next to query and interval decodes successfully to
the entry without it, and re-encoding the decoded value yields text that
differs from the raw input. -/
theorem C10_unknown_keys_dropped :
    ∃ raw : String, raw ≠ ""
      ∧ GenStructSchedule raw
          = .ok [("q", ⟨"SELECT 1;", 10, false, false, "", "", 0, false⟩)]
      ∧ ∃ s, GenSerializedConf
            (scheduleToJson [("q", ⟨"SELECT 1;", 10, false, false, "", "", 0, false⟩)])
            true = .ok s
        ∧ s ≠ raw :=
  ⟨"\x7b\"q\": \x7b\"query\": \"SELECT 1;\", \"interval\": 10, \"bogus\": 5\x7d\x7d",
    by decide, rfl, _, rfl, by decide⟩

end Osctrl
